import Mathlib

/-!
# Verification of the ETL transform/validate/deduplicate engine

A shallow embedding of `src/etl/transform.js` (class `Transformer`), the
row-level transformation, validation and deduplication engine of the
spreadsheet-to-database migration pipeline.  Strings are modelled as Lean
`String`s over their character lists; JavaScript's ASCII-relevant string
operations (`trim`, `replace`, `toUpperCase`, `toLowerCase`, `parseInt`,
`parseFloat`, `toFixed`) are reproduced at the character level.  JavaScript
numbers are modelled exactly (integers, and decimal mantissa/exponent pairs
for `parseFloat`), not as binary floating point; `NaN` is modelled as
`none`.  `new Date()`'s current day enters as an explicit `today` parameter.
Property access on the object-literal lookup tables models the full JS
semantics, including the prototype chain (`jsIndex`): a key such as
`"constructor"` that misses every own property still finds the inherited
`Object.prototype` member, a truthy non-string value.
-/

namespace Etl

/-! ## JavaScript string primitives (ASCII model) -/

/-- The whitespace characters of JS `\s` / `trim` that matter here (ASCII). -/
def jsWs (c : Char) : Bool :=
  c == ' ' || c == '\t' || c == '\n' || c == '\r' || c == '\x0b' || c == '\x0c'

/-- Drop a trailing run of whitespace (right half of JS `trim`). -/
def dropTrailWs : List Char → List Char
  | [] => []
  | c :: cs =>
    if dropTrailWs cs = [] ∧ jsWs c = true then [] else c :: dropTrailWs cs

/-- JS `String.prototype.trim` on character lists. -/
def jsTrimL (l : List Char) : List Char :=
  dropTrailWs (l.dropWhile jsWs)

/-- JS `String.prototype.trim`. -/
def jsTrim (s : String) : String := String.mk (jsTrimL s.toList)

/-- JS `str.replace(/\s+/g, ' ')`: collapse each whitespace run to one space. -/
def collapseWsL : List Char → List Char
  | [] => []
  | [c] => if jsWs c then [' '] else [c]
  | c :: c' :: cs =>
    if jsWs c then
      if jsWs c' then collapseWsL (c' :: cs) else ' ' :: collapseWsL (c' :: cs)
    else c :: collapseWsL (c' :: cs)

/-- JS regex `[0-9]` (and `\d`). -/
def digitB (c : Char) : Bool := 48 ≤ c.toNat && c.toNat ≤ 57

/-- JS regex `[a-z]`. -/
def lowerB (c : Char) : Bool := 97 ≤ c.toNat && c.toNat ≤ 122

/-- JS regex `[A-Z]`. -/
def upperB (c : Char) : Bool := 65 ≤ c.toNat && c.toNat ≤ 90

/-- JS regex `[A-Za-z]`. -/
def alphaB (c : Char) : Bool := upperB c || lowerB c

/-- JS regex `[a-zA-Z0-9]`. -/
def alnumB (c : Char) : Bool := alphaB c || digitB c

/-- JS `toUpperCase` per character (ASCII model). -/
def toUpperC (c : Char) : Char := if lowerB c then Char.ofNat (c.toNat - 32) else c

/-- JS `toLowerCase` per character (ASCII model). -/
def toLowerC (c : Char) : Char := if upperB c then Char.ofNat (c.toNat + 32) else c

/-- Numeric value of a decimal digit character. -/
def digitVal (c : Char) : Nat := c.toNat - 48

/-- The decimal digit character for `k < 10`. -/
def digitChar (k : Nat) : Char := Char.ofNat (48 + k)

/-- Value of a big-endian decimal digit string. -/
def digitsToNat (l : List Char) : Nat := l.foldl (fun acc c => 10 * acc + digitVal c) 0

/-- Decimal digits of a natural number, most significant first (fuel-indexed
so that it reduces definitionally). -/
def natToDigitsGo : Nat → Nat → List Char
  | 0, _ => []
  | fuel + 1, n =>
    if n < 10 then [digitChar n] else natToDigitsGo fuel (n / 10) ++ [digitChar (n % 10)]

/-- Decimal digits of a natural number, as JS `String(n)` for naturals. -/
def natToDigits (n : Nat) : List Char := natToDigitsGo (n + 1) n

/-- JS `String.prototype.padStart(k, '0')`. -/
def padZeros (k : Nat) (l : List Char) : List Char :=
  List.replicate (k - l.length) '0' ++ l

/-- Split a list at the first occurrence of `sep` (used to model JS
`String.prototype.split` restricted by the anchored regexes of the source). -/
def splitFirst (sep : Char) : List Char → Option (List Char × List Char)
  | [] => none
  | c :: cs =>
    if c == sep then some ([], cs)
    else (splitFirst sep cs).map fun p => (c :: p.1, p.2)

/-- JS falsiness of a string-or-null cell combined with the `value.trim() === ''`
check that every normalizer performs first (`!value || value.trim() === ''`). -/
def isBlank : Option String → Bool
  | none => true
  | some s => jsTrimL s.toList == []

/-- JS truthiness of a string-or-null value (`null` and `''` are falsy). -/
def truthy : Option String → Bool
  | none => false
  | some s => !(s == "")

/-! ## Basic character lemmas -/

theorem toList_mk (l : List Char) : (String.mk l).toList = l := rfl

theorem toNat_ofNat_valid (n : Nat) (h : n < 55296) : (Char.ofNat n).toNat = n := by
  rw [Char.ofNat, dif_pos (Or.inl h)]
  simp [Char.ofNatAux, Char.toNat, UInt32.ofNat', UInt32.toNat, BitVec.toNat_ofNatLt]

theorem char_eq_of_toNat_eq {a b : Char} (h : a.toNat = b.toNat) : a = b := by
  apply Char.ext
  apply UInt32.eq_of_toBitVec_eq
  apply BitVec.eq_of_toNat_eq
  exact h

theorem beq_char_iff_toNat (c d : Char) : (c == d) = (c.toNat == d.toNat) := by
  by_cases h : c.toNat = d.toNat
  · have he : c = d := char_eq_of_toNat_eq h
    subst he; simp
  · have hne : c ≠ d := fun hh => h (by rw [hh])
    simp [hne, h]

theorem jsWs_eq (c : Char) :
    jsWs c = (c.toNat == 9 || c.toNat == 10 || c.toNat == 11 || c.toNat == 12 ||
      c.toNat == 13 || c.toNat == 32) := by
  have h9 : '\t'.toNat = 9 := rfl
  have h10 : '\n'.toNat = 10 := rfl
  have h11 : '\x0b'.toNat = 11 := rfl
  have h12 : '\x0c'.toNat = 12 := rfl
  have h13 : '\r'.toNat = 13 := rfl
  have h32 : ' '.toNat = 32 := rfl
  simp only [jsWs, beq_char_iff_toNat, h9, h10, h11, h12, h13, h32]
  ac_rfl

theorem jsWs_false_iff (c : Char) :
    jsWs c = false ↔ ¬(c.toNat = 9 ∨ c.toNat = 10 ∨ c.toNat = 11 ∨ c.toNat = 12 ∨
      c.toNat = 13 ∨ c.toNat = 32) := by
  rw [jsWs_eq]
  simp only [Bool.or_eq_false_iff, beq_eq_false_iff_ne, ne_eq, not_or]
  tauto

theorem digitB_not_ws {c : Char} (h : digitB c = true) : jsWs c = false := by
  simp [digitB] at h
  rw [jsWs_false_iff]
  omega

theorem alnumB_not_ws {c : Char} (h : alnumB c = true) : jsWs c = false := by
  simp [alnumB, alphaB, upperB, lowerB, digitB] at h
  rw [jsWs_false_iff]
  rcases h with (h | h) | h <;> omega

theorem toUpperC_digit {c : Char} (h : digitB c = true) : toUpperC c = c := by
  simp [digitB] at h
  simp [toUpperC, lowerB]
  omega

theorem toLowerC_digit {c : Char} (h : digitB c = true) : toLowerC c = c := by
  simp [digitB] at h
  simp [toLowerC, upperB]
  omega

theorem toUpperC_toNat (c : Char) :
    (toUpperC c).toNat = if 97 ≤ c.toNat ∧ c.toNat ≤ 122 then c.toNat - 32 else c.toNat := by
  simp only [toUpperC, lowerB]
  by_cases h : 97 ≤ c.toNat ∧ c.toNat ≤ 122
  · rw [if_pos (by simpa using h), if_pos h, toNat_ofNat_valid _ (by omega)]
  · rw [if_neg (by simpa using h), if_neg h]

theorem toLowerC_toNat (c : Char) :
    (toLowerC c).toNat = if 65 ≤ c.toNat ∧ c.toNat ≤ 90 then c.toNat + 32 else c.toNat := by
  simp only [toLowerC, upperB]
  by_cases h : 65 ≤ c.toNat ∧ c.toNat ≤ 90
  · rw [if_pos (by simpa using h), if_pos h, toNat_ofNat_valid _ (by omega)]
  · rw [if_neg (by simpa using h), if_neg h]

theorem toUpperC_idem (c : Char) : toUpperC (toUpperC c) = toUpperC c := by
  apply char_eq_of_toNat_eq
  simp only [toUpperC_toNat]
  split_ifs <;> omega

theorem toLowerC_idem (c : Char) : toLowerC (toLowerC c) = toLowerC c := by
  apply char_eq_of_toNat_eq
  simp only [toLowerC_toNat]
  split_ifs <;> omega

theorem toUpperC_not_ws {c : Char} (h : jsWs c = false) : jsWs (toUpperC c) = false := by
  rw [jsWs_false_iff] at h ⊢
  rw [toUpperC_toNat]
  split_ifs <;> omega

theorem toLowerC_not_ws {c : Char} (h : jsWs c = false) : jsWs (toLowerC c) = false := by
  rw [jsWs_false_iff] at h ⊢
  rw [toLowerC_toNat]
  split_ifs <;> omega

/-! ## Trim and whitespace-collapse lemmas -/

theorem dropWhile_ws_of_all_not (l : List Char) (h : l.all (fun c => !jsWs c) = true) :
    l.dropWhile jsWs = l := by
  cases l with
  | nil => rfl
  | cons c cs =>
    simp only [List.all_cons, Bool.and_eq_true, Bool.not_eq_true'] at h
    simp [List.dropWhile, h.1]

theorem dropTrailWs_of_all_not (l : List Char) (h : l.all (fun c => !jsWs c) = true) :
    dropTrailWs l = l := by
  induction l with
  | nil => rfl
  | cons c cs ih =>
    simp only [List.all_cons, Bool.and_eq_true, Bool.not_eq_true'] at h
    rw [dropTrailWs, if_neg (by simp [h.1]), ih (by simpa using h.2)]

theorem jsTrimL_of_all_not_ws (l : List Char) (h : l.all (fun c => !jsWs c) = true) :
    jsTrimL l = l := by
  rw [jsTrimL, dropWhile_ws_of_all_not l h, dropTrailWs_of_all_not l h]

theorem dropWhile_ws_head (l : List Char) :
    (l.dropWhile jsWs).head?.all (fun c => !jsWs c) = true := by
  induction l with
  | nil => rfl
  | cons c cs ih =>
    by_cases h : jsWs c = true
    · simpa [List.dropWhile, h] using ih
    · simp at h
      simp [List.dropWhile, h]

theorem dropWhile_eq_self_of_head {l : List Char}
    (h : l.head?.all (fun c => !jsWs c) = true) : l.dropWhile jsWs = l := by
  cases l with
  | nil => rfl
  | cons c cs =>
    simp only [List.head?_cons, Option.all_some, Bool.not_eq_true'] at h
    simp [List.dropWhile, h]

theorem dropTrailWs_head (l : List Char) :
    (dropTrailWs l).head? = none ∨ (dropTrailWs l).head? = l.head? := by
  cases l with
  | nil => simp [dropTrailWs]
  | cons c cs =>
    rw [dropTrailWs]
    by_cases h : dropTrailWs cs = [] ∧ jsWs c = true
    · rw [if_pos h]; simp
    · rw [if_neg h]; simp

theorem dropTrailWs_getLast (l : List Char) :
    (dropTrailWs l).getLast?.all (fun c => !jsWs c) = true := by
  induction l with
  | nil => rfl
  | cons c cs ih =>
    rw [dropTrailWs]
    by_cases h : dropTrailWs cs = [] ∧ jsWs c = true
    · rw [if_pos h]; rfl
    · rw [if_neg h]
      rcases heq : dropTrailWs cs with _ | ⟨d, ds⟩
      · have hc : jsWs c = false := by
          cases hh : jsWs c
          · rfl
          · exact absurd ⟨heq, hh⟩ h
        simp [hc]
      · rw [heq] at ih
        simpa [List.getLast?_cons_cons] using ih

theorem dropTrailWs_eq_self_of_getLast {l : List Char}
    (h : l.getLast?.all (fun c => !jsWs c) = true) : dropTrailWs l = l := by
  induction l with
  | nil => rfl
  | cons c cs ih =>
    cases cs with
    | nil =>
      simp only [List.getLast?_singleton, Option.all_some, Bool.not_eq_true'] at h
      rw [dropTrailWs, if_neg (by simp [h])]
      rfl
    | cons d ds =>
      rw [List.getLast?_cons_cons] at h
      have hd := ih h
      rw [dropTrailWs, hd, if_neg (by simp)]

theorem jsTrimL_idem (l : List Char) : jsTrimL (jsTrimL l) = jsTrimL l := by
  have h1 : (jsTrimL l).head?.all (fun c => !jsWs c) = true := by
    rw [jsTrimL]
    rcases dropTrailWs_head (l.dropWhile jsWs) with h | h
    · simp [h]
    · rw [h]; exact dropWhile_ws_head l
  have h2 : (jsTrimL l).getLast?.all (fun c => !jsWs c) = true := dropTrailWs_getLast _
  rw [jsTrimL, dropWhile_eq_self_of_head h1, dropTrailWs_eq_self_of_getLast h2]

theorem jsTrim_idem (s : String) : jsTrim (jsTrim s) = jsTrim s := by
  simp [jsTrim, jsTrimL_idem]

theorem dropTrailWs_nil_all_ws : ∀ m : List Char, dropTrailWs m = [] → m.all jsWs = true := by
  intro m
  induction m with
  | nil => simp
  | cons c cs ih =>
    intro hm
    rw [dropTrailWs] at hm
    by_cases hcond : dropTrailWs cs = [] ∧ jsWs c = true
    · simp [hcond.2, ih hcond.1]
    · rw [if_neg hcond] at hm
      simp at hm

theorem jsTrimL_nil_all_ws {l : List Char} (h : jsTrimL l = []) :
    l.all jsWs = true := by
  rw [jsTrimL] at h
  have hdw : (l.dropWhile jsWs).all jsWs = true := dropTrailWs_nil_all_ws _ h
  induction l with
  | nil => simp
  | cons c cs ih =>
    by_cases hc : jsWs c = true
    · rw [List.dropWhile_cons, if_pos hc] at h hdw
      simp [hc, ih h hdw]
    · rw [List.dropWhile_cons, if_neg (by simp [hc])] at hdw
      simp only [List.all_cons, Bool.and_eq_true] at hdw
      simp [hdw.1] at hc

theorem jsTrimL_ne_nil {l : List Char} {c : Char} (hc : c ∈ l) (hw : jsWs c = false) :
    jsTrimL l ≠ [] := by
  intro h
  have := jsTrimL_nil_all_ws h
  rw [List.all_eq_true] at this
  rw [this c hc] at hw
  exact absurd hw (by simp)

/-- Output of `collapseWsL` is nonempty iff input is. -/
theorem collapseWsL_ne_nil {l : List Char} (h : l ≠ []) : collapseWsL l ≠ [] := by
  induction l with
  | nil => exact absurd rfl h
  | cons c cs ih =>
    cases cs with
    | nil => by_cases hc : jsWs c = true <;> simp [collapseWsL, hc]
    | cons d ds =>
      by_cases hc : jsWs c = true
      · by_cases hd : jsWs d = true
        · simpa [collapseWsL, hc, hd] using ih (by simp)
        · simp [collapseWsL, hc, hd]
      · simp [collapseWsL, hc]

theorem collapseWsL_head (cs : List Char) (c : Char) :
    (collapseWsL (c :: cs)).head? = some (if jsWs c = true then ' ' else c) := by
  induction cs generalizing c with
  | nil => by_cases hc : jsWs c = true <;> simp [collapseWsL, hc]
  | cons d ds ih =>
    by_cases hc : jsWs c = true
    · by_cases hd : jsWs d = true
      · rw [show collapseWsL (c :: d :: ds) = collapseWsL (d :: ds) by
          simp [collapseWsL, hc, hd]]
        rw [ih d, if_pos hd, if_pos hc]
      · rw [show collapseWsL (c :: d :: ds) = ' ' :: collapseWsL (d :: ds) by
          simp [collapseWsL, hc, hd]]
        simp [hc]
    · rw [show collapseWsL (c :: d :: ds) = c :: collapseWsL (d :: ds) by
        simp [collapseWsL, hc]]
      simp [hc]

/-- `wsNorm l`: every whitespace character is a plain space and no two
whitespace characters are adjacent; the image of `collapseWsL`. -/
def wsNorm : List Char → Bool
  | [] => true
  | [c] => !jsWs c || c == ' '
  | c :: c' :: cs => (!jsWs c || c == ' ') && (!(jsWs c && jsWs c')) && wsNorm (c' :: cs)

theorem wsNorm_cons (x : Char) (rest : List Char) :
    wsNorm (x :: rest) =
      ((!jsWs x || x == ' ') && (rest.head?.all fun y => !(jsWs x && jsWs y)) &&
        wsNorm rest) := by
  cases rest with
  | nil => simp [wsNorm]
  | cons y ys => simp [wsNorm]

theorem collapseWsL_wsNorm (l : List Char) : wsNorm (collapseWsL l) = true := by
  induction l with
  | nil => rfl
  | cons c cs ih =>
    cases cs with
    | nil =>
      by_cases hc : jsWs c = true <;> simp [collapseWsL, wsNorm, hc]
    | cons d ds =>
      by_cases hc : jsWs c = true
      · by_cases hd : jsWs d = true
        · rw [show collapseWsL (c :: d :: ds) = collapseWsL (d :: ds) by
            simp [collapseWsL, hc, hd]]
          exact ih
        · rw [show collapseWsL (c :: d :: ds) = ' ' :: collapseWsL (d :: ds) by
            simp [collapseWsL, hc, hd]]
          rw [wsNorm_cons, collapseWsL_head ds d, if_neg (by simp [hd])]
          simp [hd, ih]
      · rw [show collapseWsL (c :: d :: ds) = c :: collapseWsL (d :: ds) by
          simp [collapseWsL, hc]]
        rw [wsNorm_cons, collapseWsL_head ds d]
        simp [hc, ih]

theorem collapseWsL_of_wsNorm (l : List Char) (h : wsNorm l = true) : collapseWsL l = l := by
  induction l with
  | nil => rfl
  | cons c cs ih =>
    cases cs with
    | nil =>
      simp only [wsNorm] at h
      by_cases hc : jsWs c = true
      · simp [hc] at h
        simp [collapseWsL, hc, h]
      · simp [collapseWsL, hc]
    | cons d ds =>
      simp only [wsNorm, Bool.and_eq_true] at h
      obtain ⟨⟨hsp, hadj⟩, hrest⟩ := h
      have hds := ih hrest
      by_cases hc : jsWs c = true
      · have hd : jsWs d = false := by
          cases hh : jsWs d
          · rfl
          · simp [hc, hh] at hadj
        have hcsp : c = ' ' := by
          simp [hc] at hsp
          exact hsp
        simp [collapseWsL, hc, hd, hds, hcsp]
      · simp [collapseWsL, hc, hds]

theorem collapseWsL_idem (l : List Char) : collapseWsL (collapseWsL l) = collapseWsL l :=
  collapseWsL_of_wsNorm _ (collapseWsL_wsNorm l)

theorem collapseWsL_getLast (l : List Char) (h : l.getLast?.all (fun c => !jsWs c) = true) :
    (collapseWsL l).getLast?.all (fun c => !jsWs c) = true := by
  induction l with
  | nil => rfl
  | cons c cs ih =>
    cases cs with
    | nil =>
      simp only [List.getLast?_singleton, Option.all_some, Bool.not_eq_true'] at h
      simp [collapseWsL, h]
    | cons d ds =>
      rw [List.getLast?_cons_cons] at h
      have hIH := ih h
      have hne : collapseWsL (d :: ds) ≠ [] := collapseWsL_ne_nil (by simp)
      by_cases hc : jsWs c = true
      · by_cases hd : jsWs d = true
        · rw [show collapseWsL (c :: d :: ds) = collapseWsL (d :: ds) by
            simp [collapseWsL, hc, hd]]
          exact hIH
        · rw [show collapseWsL (c :: d :: ds) = ' ' :: collapseWsL (d :: ds) by
            simp [collapseWsL, hc, hd]]
          rcases heq : collapseWsL (d :: ds) with _ | ⟨e, es⟩
          · exact absurd heq hne
          · rw [heq] at hIH
            simpa [List.getLast?_cons_cons] using hIH
      · rw [show collapseWsL (c :: d :: ds) = c :: collapseWsL (d :: ds) by
          simp [collapseWsL, hc]]
        rcases heq : collapseWsL (d :: ds) with _ | ⟨e, es⟩
        · exact absurd heq hne
        · rw [heq] at hIH
          simpa [List.getLast?_cons_cons] using hIH

theorem jsTrimL_head_ok (l : List Char) :
    (jsTrimL l).head?.all (fun c => !jsWs c) = true := by
  rw [jsTrimL]
  rcases dropTrailWs_head (l.dropWhile jsWs) with h | h
  · simp [h]
  · rw [h]; exact dropWhile_ws_head l

theorem jsTrimL_getLast_ok (l : List Char) :
    (jsTrimL l).getLast?.all (fun c => !jsWs c) = true :=
  dropTrailWs_getLast _

theorem jsTrimL_of_edges {l : List Char}
    (h1 : l.head?.all (fun c => !jsWs c) = true)
    (h2 : l.getLast?.all (fun c => !jsWs c) = true) : jsTrimL l = l := by
  rw [jsTrimL, dropWhile_eq_self_of_head h1, dropTrailWs_eq_self_of_getLast h2]

theorem jsTrimL_collapse_trim (l : List Char) :
    jsTrimL (collapseWsL (jsTrimL l)) = collapseWsL (jsTrimL l) := by
  rcases heq : jsTrimL l with _ | ⟨c, cs⟩
  · rfl
  · have h1 : (collapseWsL (c :: cs)).head?.all (fun c => !jsWs c) = true := by
      have := jsTrimL_head_ok l
      rw [heq] at this
      simp only [List.head?_cons, Option.all_some] at this
      rw [collapseWsL_head cs c, if_neg (by simpa using this)]
      simpa using this
    have h2 : (collapseWsL (c :: cs)).getLast?.all (fun c => !jsWs c) = true := by
      apply collapseWsL_getLast
      have := jsTrimL_getLast_ok l
      rw [heq] at this
      exact this
    exact jsTrimL_of_edges h1 h2

/-! ## Decimal digit strings -/

theorem digitB_digitChar {k : Nat} (h : k < 10) : digitB (digitChar k) = true := by
  have hv : (Char.ofNat (48 + k)).toNat = 48 + k := toNat_ofNat_valid _ (by omega)
  simp [digitB, digitChar, hv]
  omega

theorem digitVal_digitChar {k : Nat} (h : k < 10) : digitVal (digitChar k) = k := by
  have hv : (Char.ofNat (48 + k)).toNat = 48 + k := toNat_ofNat_valid _ (by omega)
  simp [digitVal, digitChar, hv]

theorem digitVal_lt {c : Char} (h : digitB c = true) : digitVal c < 10 := by
  simp [digitB] at h
  simp [digitVal]
  omega

theorem digitChar_digitVal {c : Char} (h : digitB c = true) : digitChar (digitVal c) = c := by
  simp [digitB] at h
  rw [digitChar, digitVal, show 48 + (c.toNat - 48) = c.toNat by omega, Char.ofNat_toNat]

theorem foldl_digits (l : List Char) (acc : Nat) :
    l.foldl (fun acc c => 10 * acc + digitVal c) acc = acc * 10 ^ l.length + digitsToNat l := by
  induction l generalizing acc with
  | nil => simp [digitsToNat]
  | cons c cs ih =>
    rw [List.foldl_cons, ih (10 * acc + digitVal c),
      show digitsToNat (c :: cs) = (10 * 0 + digitVal c) * 10 ^ cs.length + digitsToNat cs
        from by rw [digitsToNat, List.foldl_cons, ih]]
    simp [List.length_cons, pow_succ]
    ring

theorem digitsToNat_cons (c : Char) (cs : List Char) :
    digitsToNat (c :: cs) = digitVal c * 10 ^ cs.length + digitsToNat cs := by
  rw [digitsToNat, List.foldl_cons, foldl_digits]
  ring_nf

theorem digitsToNat_append (l m : List Char) :
    digitsToNat (l ++ m) = digitsToNat l * 10 ^ m.length + digitsToNat m := by
  rw [digitsToNat, List.foldl_append, foldl_digits]
  rfl

theorem digitsToNat_lt (l : List Char) (h : l.all digitB = true) :
    digitsToNat l < 10 ^ l.length := by
  induction l with
  | nil => simp [digitsToNat]
  | cons c cs ih =>
    simp only [List.all_cons, Bool.and_eq_true] at h
    have h1 := digitVal_lt h.1
    have h2 := ih h.2
    rw [digitsToNat_cons, List.length_cons, pow_succ]
    nlinarith

theorem digitsToNat_replicate_zero (m : Nat) :
    digitsToNat (List.replicate m '0') = 0 := by
  induction m with
  | zero => rfl
  | succ k ih =>
    rw [List.replicate_succ, digitsToNat_cons, ih]
    simp [digitVal]

theorem digitsToNat_padZeros (k : Nat) (l : List Char) :
    digitsToNat (padZeros k l) = digitsToNat l := by
  rw [padZeros, digitsToNat_append, digitsToNat_replicate_zero]
  simp

theorem natToDigitsGo_spec :
    ∀ fuel n, n < fuel →
      (natToDigitsGo fuel n).all digitB = true ∧ natToDigitsGo fuel n ≠ [] ∧
        digitsToNat (natToDigitsGo fuel n) = n := by
  intro fuel
  induction fuel with
  | zero => intro n h; omega
  | succ f ih =>
    intro n h
    by_cases h10 : n < 10
    · rw [natToDigitsGo, if_pos h10]
      refine ⟨by simp [digitB_digitChar h10], by simp, ?_⟩
      rw [digitsToNat_cons, digitVal_digitChar h10]
      simp [digitsToNat]
    · rw [natToDigitsGo, if_neg h10]
      have hdiv : n / 10 < f := by omega
      obtain ⟨ha, hne, hval⟩ := ih (n / 10) hdiv
      refine ⟨?_, by simp, ?_⟩
      · simp only [List.all_append, Bool.and_eq_true, ha, true_and]
        simp [digitB_digitChar (Nat.mod_lt n (by omega))]
      · rw [digitsToNat_append, hval]
        simp [digitsToNat_cons, digitVal_digitChar (Nat.mod_lt n (show 0 < 10 by omega)),
          digitsToNat]
        omega

theorem natToDigits_all (n : Nat) : (natToDigits n).all digitB = true :=
  (natToDigitsGo_spec (n + 1) n (by omega)).1

theorem natToDigits_ne_nil (n : Nat) : natToDigits n ≠ [] :=
  (natToDigitsGo_spec (n + 1) n (by omega)).2.1

theorem digitsToNat_natToDigits (n : Nat) : digitsToNat (natToDigits n) = n :=
  (natToDigitsGo_spec (n + 1) n (by omega)).2.2

theorem natToDigitsGo_length :
    ∀ fuel n k, n < fuel → n < 10 ^ k → 1 ≤ k → (natToDigitsGo fuel n).length ≤ k := by
  intro fuel
  induction fuel with
  | zero => intro n k h; omega
  | succ f ih =>
    intro n k h hk h1
    by_cases h10 : n < 10
    · rw [natToDigitsGo, if_pos h10]
      simpa using h1
    · rw [natToDigitsGo, if_neg h10]
      have hk2 : 2 ≤ k := by
        by_contra hc
        interval_cases k <;> omega
      have hdiv : n / 10 < 10 ^ (k - 1) := by
        have : 10 ^ k = 10 ^ (k - 1) * 10 := by
          rw [← pow_succ]
          congr 1
          omega
        omega
      have := ih (n / 10) (k - 1) (by omega) hdiv (by omega)
      simp only [List.length_append, List.length_cons, List.length_nil]
      omega

theorem natToDigits_length (n k : Nat) (h : n < 10 ^ k) (h1 : 1 ≤ k) :
    (natToDigits n).length ≤ k :=
  natToDigitsGo_length (n + 1) n k (by omega) h h1

theorem digits_unique :
    ∀ l m : List Char, l.all digitB = true → m.all digitB = true →
      l.length = m.length → digitsToNat l = digitsToNat m → l = m := by
  intro l
  induction l with
  | nil =>
    intro m _ _ hlen _
    exact (List.eq_nil_of_length_eq_zero hlen.symm).symm
  | cons c cs ih =>
    intro m hl hm hlen hval
    cases m with
    | nil => simp at hlen
    | cons d ds =>
      simp only [List.all_cons, Bool.and_eq_true] at hl hm
      simp only [List.length_cons, Nat.succ_inj] at hlen
      rw [digitsToNat_cons, digitsToNat_cons, hlen] at hval
      have hc := digitVal_lt hl.1
      have hd := digitVal_lt hm.1
      have hcs := digitsToNat_lt cs hl.2
      have hds := digitsToNat_lt ds hm.2
      rw [hlen] at hcs
      have hB : 0 < 10 ^ ds.length := pow_pos (by norm_num) _
      have hvc : digitVal c = digitVal d := by
        have e1 : (digitVal c * 10 ^ ds.length + digitsToNat cs) / 10 ^ ds.length =
            digitVal c := by
          rw [mul_comm, Nat.mul_add_div hB, Nat.div_eq_of_lt hcs]
          omega
        have e2 : (digitVal d * 10 ^ ds.length + digitsToNat ds) / 10 ^ ds.length =
            digitVal d := by
          rw [mul_comm, Nat.mul_add_div hB, Nat.div_eq_of_lt hds]
          omega
        rw [← e1, hval, e2]
      rw [hvc] at hval
      have heq1 : c = d := by
        rw [← digitChar_digitVal hl.1, ← digitChar_digitVal hm.1, hvc]
      have heq2 : cs = ds := ih ds hl.2 hm.2 hlen (by omega)
      rw [heq1, heq2]

/-! ## List-splitting lemmas -/

theorem splitFirst_eq {sep : Char} :
    ∀ {l a b : List Char}, splitFirst sep l = some (a, b) →
      l = a ++ sep :: b ∧ sep ∉ a := by
  intro l
  induction l with
  | nil => intro a b h; simp [splitFirst] at h
  | cons c cs ih =>
    intro a b h
    rw [splitFirst] at h
    by_cases hc : (c == sep) = true
    · rw [if_pos hc] at h
      simp only [Option.some_inj, Prod.mk.injEq] at h
      simp only [beq_iff_eq] at hc
      rw [← h.1, ← h.2, hc]
      simp
    · rw [if_neg hc] at h
      rcases hsp : splitFirst sep cs with _ | ⟨p, q⟩
      · rw [hsp] at h; simp at h
      · rw [hsp] at h
        simp only [Option.map_some', Option.some_inj, Prod.mk.injEq] at h
        obtain ⟨hes, hcs⟩ := ih hsp
        simp only [beq_iff_eq] at hc
        rw [← h.1, ← h.2]
        constructor
        · simp [hes]
        · simp only [List.mem_cons, not_or]
          exact ⟨fun hh => hc hh.symm, hcs⟩

theorem takeWhile_append_of_all {p : Char → Bool} :
    ∀ {a b : List Char}, a.all p = true → b.head?.all (fun c => !p c) = true →
      (a ++ b).takeWhile p = a ∧ (a ++ b).dropWhile p = b := by
  intro a
  induction a with
  | nil =>
    intro b _ hb
    cases b with
    | nil => simp
    | cons c cs =>
      simp only [List.head?_cons, Option.all_some, Bool.not_eq_true'] at hb
      simp [List.takeWhile, List.dropWhile, hb]
  | cons c cs ih =>
    intro b ha hb
    simp only [List.all_cons, Bool.and_eq_true] at ha
    have := ih ha.2 hb
    simp [List.takeWhile, List.dropWhile, ha.1, this.1, this.2]

/-! ## JavaScript number parsing and printing

JS numbers are IEEE doubles; here they are modelled exactly: `parseInt`
results as integers, `parseFloat` results as a decimal mantissa/exponent
pair `(m, e)` denoting `m * 10^e`.  `NaN` is `none`.  (`Infinity` inputs and
float rounding artifacts are outside the model.) -/

/-- Hexadecimal digit (for `parseInt`'s `0x` handling). -/
def hexDigitB (c : Char) : Bool :=
  digitB c || (65 ≤ c.toNat && c.toNat ≤ 70) || (97 ≤ c.toNat && c.toNat ≤ 102)

/-- Value of a hexadecimal digit character. -/
def hexDigitVal (c : Char) : Nat :=
  if digitB c then digitVal c else if c.toNat ≤ 70 then c.toNat - 55 else c.toNat - 87

/-- Value of a big-endian hexadecimal digit string. -/
def hexToNat (l : List Char) : Nat := l.foldl (fun acc c => 16 * acc + hexDigitVal c) 0

/-- Leading sign of a JS numeric literal. -/
def takeSign : List Char → Int × List Char
  | [] => (1, [])
  | c :: r => if c == '-' then (-1, r) else if c == '+' then (1, r) else (1, c :: r)

/-- JS `parseInt(value)` with no radix argument: skip leading whitespace,
optional sign, optional `0x`/`0X` hexadecimal prefix, then the longest
digit prefix; `NaN` (`none`) when no digit is found. -/
def jsParseIntL (l : List Char) : Option Int :=
  let l1 := l.dropWhile jsWs
  let s := takeSign l1
  match s.2 with
  | '0' :: x :: r =>
    if x == 'x' || x == 'X' then
      let ds := r.takeWhile hexDigitB
      if ds = [] then none else some (s.1 * hexToNat ds)
    else
      some (s.1 * digitsToNat (('0' :: x :: r).takeWhile digitB))
  | l2 =>
    let ds := l2.takeWhile digitB
    if ds = [] then none else some (s.1 * digitsToNat ds)

/-- JS `parseFloat(value)`: skip leading whitespace, optional sign, longest
prefix of the form `digits[.digits][e[sign]digits]`; result is the decimal
mantissa/exponent pair, `NaN` is `none`. -/
def jsParseFloatL (l : List Char) : Option (Int × Int) :=
  let l1 := l.dropWhile jsWs
  let s := takeSign l1
  let ip := s.2.takeWhile digitB
  let r1 := s.2.dropWhile digitB
  let fp := match r1 with
    | '.' :: r => r.takeWhile digitB
    | _ => []
  let r2 := match r1 with
    | '.' :: r => r.dropWhile digitB
    | _ => r1
  if ip = [] ∧ fp = [] then none
  else
    let m : Int := s.1 * digitsToNat (ip ++ fp)
    let e0 : Int := -(fp.length : Int)
    let e : Int := match r2 with
      | c :: r3 =>
        if c == 'e' || c == 'E' then
          let es := takeSign r3
          let eds := es.2.takeWhile digitB
          if eds = [] then e0 else e0 + es.1 * digitsToNat eds
        else e0
      | [] => e0
    some (m, e)

/-- JS `price.toFixed(2)` for a nonnegative decimal `m * 10^e` (the source
only calls it after rejecting negative prices): round half-up to an integer
count `n` of cents, then print `n / 100 "." n % 100`. -/
def toFixed2 (m e : Int) : String :=
  let n : Nat :=
    if 0 ≤ e + 2 then m.toNat * 10 ^ (e + 2).toNat
    else
      let d := 10 ^ (-(e + 2)).toNat
      (2 * m.toNat + d) / (2 * d)
  String.mk (natToDigits (n / 100) ++ '.' :: padZeros 2 (natToDigits (n % 100)))

/-! ## Calendar dates (the model of JS `new Date("YYYY-MM-DD")` and
`toISOString`) -/

def isLeap (y : Nat) : Bool := (y % 4 == 0 && y % 100 != 0) || y % 400 == 0

def daysInMonth (y m : Nat) : Nat :=
  if m == 2 then (if isLeap y then 29 else 28)
  else if m == 4 || m == 6 || m == 9 || m == 11 then 30 else 31

/-- Validity of a `new Date("YYYY-MM-DD")` parse: the Date Time String
Format grammar accepts a month field 01..12 and a day field 01..31; out of
those ranges the result is an invalid time value.  A grammar-valid day past
the end of its month does NOT invalidate the date: `MakeDay` rolls it over
into the following month (see `rollYmd`). -/
def validYmd (y m d : Nat) : Bool :=
  1 ≤ m && m ≤ 12 && 1 ≤ d && d ≤ 31

/-- `MakeDay` normalization of a grammar-valid date: a day past the end of
the month rolls over into the following month (`new Date("2023-02-29")` is
the 1st of March 2023; for a day field of at most 31 the overflow never
reaches past the next month). -/
def rollYmd (y m d : Nat) : Nat × Nat × Nat :=
  if d ≤ daysInMonth y m then (y, m, d)
  else if m = 12 then (y + 1, 1, d - daysInMonth y m)
  else (y, m + 1, d - daysInMonth y m)

/-- Zero-padded 4-digit decimal (year field of `toISOString`). -/
def pad4 (n : Nat) : List Char := padZeros 4 (natToDigits n)

/-- Zero-padded 2-digit decimal (month/day fields of `toISOString`). -/
def pad2 (n : Nat) : List Char := padZeros 2 (natToDigits n)

/-- `date.toISOString().split('T')[0]` for the UTC date `(y, m, d)`. -/
def isoOfYmd (y m d : Nat) : String :=
  String.mk (pad4 y ++ '-' :: pad2 m ++ '-' :: pad2 d)

/-- Test and parse of the anchored regex `^\d{4}-\d{2}-\d{2}$` (source
format 1), yielding the year/month/day fields. -/
def parseIso? (l : List Char) : Option (Nat × Nat × Nat) :=
  match l with
  | [a, b, c, d, s1, e, f, s2, g, h] =>
    if s1 == '-' && s2 == '-' && [a, b, c, d, e, f, g, h].all digitB then
      some (digitsToNat [a, b, c, d], digitsToNat [e, f], digitsToNat [g, h])
    else none
  | _ => none

/-- `\d{1,2}` segment of the date regexes. -/
def seg12 (l : List Char) : Bool := (l.length == 1 || l.length == 2) && l.all digitB

/-- `\d{4}` segment of the date regexes. -/
def seg4 (l : List Char) : Bool := l.length == 4 && l.all digitB

/-- Split into exactly the three segments of `a SEP b SEP c` (the segment
digit tests reject any further separator occurrences, matching the anchored
regexes). -/
def threeParts (sep : Char) (l : List Char) : Option (List Char × List Char × List Char) :=
  match splitFirst sep l with
  | none => none
  | some (a, r) =>
    match splitFirst sep r with
    | none => none
    | some (b, c) => some (a, b, c)

/-- The year/month/day candidate extracted by the three format branches of
`transformRegisteredAt`, in source order: ISO `YYYY-MM-DD`, then
`MM/DD/YYYY`, then `DD-MM-YYYY`; `none` means "Invalid date format". -/
def dateCandidate (raw : List Char) : Option (Nat × Nat × Nat) :=
  match parseIso? raw with
  | some ymd => some ymd
  | none =>
    let slash := match threeParts '/' raw with
      | some (mo, da, yr) =>
        if seg12 mo && seg12 da && seg4 yr then
          some (digitsToNat yr, digitsToNat mo, digitsToNat da)
        else none
      | none => none
    match slash with
    | some ymd => some ymd
    | none =>
      match threeParts '-' raw with
      | some (da, mo, yr) =>
        if seg12 da && seg12 mo && seg4 yr then
          some (digitsToNat yr, digitsToNat mo, digitsToNat da)
        else none
      | none => none

/-- The source's future-registration check `date > new Date()`, with "now"
modelled by the same current-day string that `new Date()` supplies to the
empty/invalid branches. -/
def futureYmd (today : String) (y m d : Nat) : Bool :=
  match parseIso? today.toList with
  | some (ty, tm, td) => (ty * 100 + tm) * 100 + td < (y * 100 + m) * 100 + d
  | none => false

/-- A canonical ISO day string: what `new Date().toISOString().split('T')[0]`
always produces — a real calendar date (the day fits its month) printed in
canonical zero-padded form. -/
def isCanonIso (s : String) : Bool :=
  match parseIso? s.toList with
  | some (y, m, d) =>
    validYmd y m d && decide (d ≤ daysInMonth y m) && isoOfYmd y m d == s
  | none => false

/-! ## The Transformer (src/etl/transform.js)

Each normalizer method becomes a function from the raw string-or-null cell
value and the 1-based `rowIndex` to a `FieldRes`: the returned value plus
the entries pushed onto `this.validationErrors` and the messages emitted
through `this.logger.warn` during the call. -/

/-- One entry of `this.validationErrors`. -/
structure VError where
  row : Nat
  field : String
  value : Option String
  error : String
deriving Repr, DecidableEq

/-- Result of one normalizer call: the returned value, the validation
errors pushed, and the warnings logged. -/
structure FieldRes (α : Type) where
  val : α
  errs : List VError
  warns : List String
deriving Repr, DecidableEq

/-- `^C\d+$` (lines 38-39). -/
def cidFormat : List Char → Bool
  | c :: rest => c == 'C' && !rest.isEmpty && rest.all digitB
  | [] => false

/-- `cleaned.startsWith('C')` (line 34). -/
def startsWithC : List Char → Bool
  | c :: _ => c == 'C'
  | [] => false

/-- `^ORD\d+$` (line 298). -/
def ordFormat : List Char → Bool
  | a :: b :: c :: rest =>
    a == 'O' && b == 'R' && c == 'D' && !rest.isEmpty && rest.all digitB
  | _ => false

/-- `cleaned.startsWith('ORD')` (line 294). -/
def startsWithORD : List Char → Bool
  | a :: b :: c :: _ => a == 'O' && b == 'R' && c == 'D'
  | _ => false

/-- `transformCustomerId` (transform.js lines 25-50): strip non-alphanumerics,
uppercase, ensure a `C` prefix, then validate against `^C\d+$`. -/
def transformCustomerId (value : Option String) (rowIndex : Nat) :
    FieldRes (Option String) :=
  if isBlank value then
    ⟨none, [], ["Row " ++ toString rowIndex ++ ": Empty customer_id, will need to be generated"]⟩
  else
    let cleaned := ((value.getD "").toList.filter alnumB).map toUpperC
    let cleaned2 := if startsWithC cleaned then cleaned else 'C' :: cleaned
    if cidFormat cleaned2 then ⟨some (String.mk cleaned2), [], []⟩
    else
      ⟨none, [⟨rowIndex, "customer_id", value, "Invalid format, must be C followed by numbers"⟩], []⟩

/-- `transformFullName` (lines 52-72): required; trim and collapse internal
whitespace; all-digit names only warn. -/
def transformFullName (value : Option String) (rowIndex : Nat) :
    FieldRes (Option String) :=
  if isBlank value then
    ⟨none, [⟨rowIndex, "full_name", value, "Name is required"⟩], []⟩
  else
    let cleaned := collapseWsL (jsTrimL (value.getD "").toList)
    ⟨some (String.mk cleaned), [],
      if !cleaned.isEmpty && cleaned.all digitB then
        ["Row " ++ toString rowIndex ++ ": Suspicious name (all digits): \"" ++
          String.mk cleaned ++ "\""]
      else []⟩

/-- The local-part character class of the email regex (line 89). -/
def localChar (c : Char) : Bool :=
  alnumB c || c == '.' || c == '_' || c == '%' || c == '+' || c == '-'

/-- The domain character class of the email regex (line 89). -/
def domChar (c : Char) : Bool := alnumB c || c == '.' || c == '-'

/-- Split at the last `'.'` of a list, if any. -/
def lastDotSplit (l : List Char) : Option (List Char × List Char) :=
  match l.reverse.dropWhile (fun c => !(c == '.')) with
  | '.' :: revPre => some (revPre.reverse, (l.reverse.takeWhile (fun c => !(c == '.'))).reverse)
  | _ => none

/-- The anchored email regex `^[A-Za-z0-9._%+-]+@[A-Za-z0-9.-]+\.[A-Za-z]{2,}$`
(line 89): a nonempty local part, one `@`, a nonempty dotted domain whose
final label is two or more letters. -/
def emailOkL (l : List Char) : Bool :=
  match splitFirst '@' l with
  | none => false
  | some (loc, dom) =>
    !loc.isEmpty && loc.all localChar &&
      (match lastDotSplit dom with
       | none => false
       | some (pre, tld) =>
         !pre.isEmpty && pre.all domChar && decide (2 ≤ tld.length) && tld.all alphaB)

/-- `transformEmail` (lines 74-101): required; trim, lowercase; reject when
the regex fails. -/
def transformEmail (value : Option String) (rowIndex : Nat) :
    FieldRes (Option String) :=
  if isBlank value then
    ⟨none, [⟨rowIndex, "email", value, "Email is required"⟩], []⟩
  else
    let cleaned := (jsTrimL (value.getD "").toList).map toLowerC
    if emailOkL cleaned then ⟨some (String.mk cleaned), [], []⟩
    else ⟨none, [⟨rowIndex, "email", value, "Invalid email format"⟩], []⟩

/-- `transformPhone` (lines 103-120): optional; strip non-digits; 7 digits
become `XXX-XXXX`, 10 digits are kept as-is, anything else is null plus a
warning. -/
def transformPhone (value : Option String) (rowIndex : Nat) :
    FieldRes (Option String) :=
  if isBlank value then ⟨none, [], []⟩
  else
    let digits := (value.getD "").toList.filter digitB
    if digits.length = 7 then
      ⟨some (String.mk (digits.take 3 ++ '-' :: digits.drop 3)), [], []⟩
    else if digits.length = 10 then ⟨some (String.mk digits), [], []⟩
    else
      ⟨none, [],
        ["Row " ++ toString rowIndex ++ ": Invalid phone format: \"" ++ value.getD "" ++ "\""]⟩

/-- `transformCity` (lines 122-129): optional; trim only. -/
def transformCity (value : Option String) (rowIndex : Nat) :
    FieldRes (Option String) :=
  if isBlank value then ⟨none, [], []⟩
  else ⟨some (jsTrim (value.getD "")), [], []⟩

/-! ### JS object-literal property access

`this.stateMapping[cleaned]`, `statusMap[cleaned.toLowerCase()]` and
`statusMap[cleaned]` (in `transformOrderStatus`) are property accesses on
plain object literals, so a key that misses every own property still walks
the prototype chain: the members of `Object.prototype` (`constructor`,
`toString`, `hasOwnProperty`, ...) are found there.  Those inherited
members are functions (and, for `__proto__`, an object), hence truthy and
not strings, and the code returns them with no warning. -/

/-- A value produced by indexing one of the string-valued object literals:
either a string from an own property, or an inherited `Object.prototype`
member (a function or object, remembered here by its property name). -/
inductive JsMember where
  | strVal : String → JsMember
  | protoMember : String → JsMember
deriving Repr, DecidableEq

/-- The own property names of `Object.prototype` (Node): every object
literal inherits these through its prototype chain. -/
def objectProtoKeys : List String :=
  ["constructor", "hasOwnProperty", "isPrototypeOf", "propertyIsEnumerable",
   "toLocaleString", "toString", "valueOf", "__proto__",
   "__defineGetter__", "__defineSetter__", "__lookupGetter__", "__lookupSetter__"]

/-- JS property access `obj[k]` on an object literal whose own properties
are the string-valued `own`: an own property wins; otherwise the prototype
chain yields the inherited `Object.prototype` member; otherwise the access
evaluates to `undefined` (`none`). -/
def jsIndex (own : List (String × String)) (k : String) : Option JsMember :=
  match own.lookup k with
  | some v => some (.strVal v)
  | none => if k ∈ objectProtoKeys then some (.protoMember k) else none

/-- JS truthiness of an accessed member: the empty string is falsy; every
inherited `Object.prototype` member is a function or object, hence truthy. -/
def jsMemberTruthy : JsMember → Bool
  | .strVal s => !(s == "")
  | .protoMember _ => true

/-- Re-application of a `FieldRes JsMember` normalizer to its own output
under JS dynamic typing: a string result feeds back normally, but an
inherited `Object.prototype` member is a function, so the normalizer's
`value.trim()` call throws a `TypeError` on it. -/
def jsReapplyMember (f : Option String → Nat → FieldRes JsMember)
    (m : JsMember) (j : Nat) : Except String (FieldRes JsMember) :=
  match m with
  | .strVal s => .ok (f (some s) j)
  | .protoMember _ => .error "TypeError: value.trim is not a function"

/-- As `jsReapplyMember` for the optional-result normalizer
(`transformStateCode`): `null` feeds back as `null`. -/
def jsReapplyMemberOpt (f : Option String → Nat → FieldRes (Option JsMember))
    (m : Option JsMember) (j : Nat) : Except String (FieldRes (Option JsMember)) :=
  match m with
  | none => .ok (f none j)
  | some (.strVal s) => .ok (f (some s) j)
  | some (.protoMember _) => .error "TypeError: value.trim is not a function"

/-- The 20-entry full-name-to-code table of the constructor (lines 12-18). -/
def stateMapping : List (String × String) :=
  [("New York", "NY"), ("California", "CA"), ("Texas", "TX"), ("Florida", "FL"),
   ("Illinois", "IL"), ("Pennsylvania", "PA"), ("Ohio", "OH"), ("Georgia", "GA"),
   ("North Carolina", "NC"), ("Michigan", "MI"), ("New Jersey", "NJ"), ("Virginia", "VA"),
   ("Washington", "WA"), ("Arizona", "AZ"), ("Massachusetts", "MA"), ("Tennessee", "TN"),
   ("Indiana", "IN"), ("Missouri", "MO"), ("Maryland", "MD"), ("Wisconsin", "WI")]

/-- `transformStateCode` (lines 131-151): optional; 2-character values are
uppercased (JS `cleaned.length === 2` counts UTF-16 code units, which over
this ASCII character model coincides with the character count); other
values index the `stateMapping` object literal, consulting the prototype
chain on an own-table miss (`jsIndex`); a truthy hit — a table code or an
inherited `Object.prototype` member — is returned with no warning; an
`undefined` (or falsy) access becomes null plus a warning. -/
def transformStateCode (value : Option String) (rowIndex : Nat) :
    FieldRes (Option JsMember) :=
  if isBlank value then ⟨none, [], []⟩
  else
    let cleaned := jsTrimL (value.getD "").toList
    if cleaned.length = 2 then
      ⟨some (.strVal (String.mk (cleaned.map toUpperC))), [], []⟩
    else
      match jsIndex stateMapping (String.mk cleaned) with
      | some mapped =>
        if jsMemberTruthy mapped then ⟨some mapped, [], []⟩
        else
          ⟨none, [],
            ["Row " ++ toString rowIndex ++ ": Unknown state: \"" ++ value.getD "" ++ "\""]⟩
      | none =>
        ⟨none, [],
          ["Row " ++ toString rowIndex ++ ": Unknown state: \"" ++ value.getD "" ++ "\""]⟩

/-- `transformRegisteredAt` (lines 153-192): empty input defaults to today;
three anchored formats are tried in order (`YYYY-MM-DD`, `MM/DD/YYYY`,
`DD-MM-YYYY`); an unmatched format or an invalid date value (month outside
01..12 or day outside 01..31) falls back to today plus a warning; a
grammar-valid day past the end of its month rolls over via `MakeDay` and
the rolled date is printed by `toISOString`; a future date only warns. -/
def transformRegisteredAt (today : String) (value : Option String) (rowIndex : Nat) :
    FieldRes String :=
  if isBlank value then ⟨today, [], []⟩
  else
    let raw := (value.getD "").toList
    match dateCandidate raw with
    | some (y, m, d) =>
      if validYmd y m d then
        let r := rollYmd y m d
        ⟨isoOfYmd r.1 r.2.1 r.2.2, [],
          if futureYmd today r.1 r.2.1 r.2.2 then
            ["Row " ++ toString rowIndex ++ ": Future registration date: \"" ++
              value.getD "" ++ "\""]
          else []⟩
      else
        ⟨today, [],
          ["Row " ++ toString rowIndex ++ ": Invalid date value: \"" ++ value.getD "" ++
            "\", using current date"]⟩
    | none =>
      ⟨today, [],
        ["Row " ++ toString rowIndex ++ ": Invalid date format: \"" ++ value.getD "" ++
          "\", using current date"]⟩

/-- The `statusMap` of `transformStatus` (lines 200-208). -/
def statusMap : List (String × String) :=
  [("active", "Active"), ("inactive", "Inactive"), ("pending", "Pending"),
   ("yes", "Active"), ("no", "Inactive"), ("1", "Active"), ("0", "Inactive")]

/-- `transformStatus` (lines 194-218): empty defaults to `Active`; the
trimmed, lowercased value indexes the `statusMap` object literal,
consulting the prototype chain on an own-table miss (`jsIndex`); a truthy
hit — a table variant or an inherited `Object.prototype` member — is
returned with no warning; an `undefined` (or falsy) access defaults to
`Active` plus a warning. -/
def transformStatus (value : Option String) (rowIndex : Nat) : FieldRes JsMember :=
  if isBlank value then ⟨.strVal "Active", [], []⟩
  else
    let cleaned := jsTrimL (value.getD "").toList
    match jsIndex statusMap (String.mk (cleaned.map toLowerC)) with
    | some mapped =>
      if jsMemberTruthy mapped then ⟨mapped, [], []⟩
      else
        ⟨.strVal "Active", [],
          ["Row " ++ toString rowIndex ++ ": Unknown status \"" ++ value.getD "" ++
            "\", defaulting to Active"]⟩
    | none =>
      ⟨.strVal "Active", [],
        ["Row " ++ toString rowIndex ++ ": Unknown status \"" ++ value.getD "" ++
          "\", defaulting to Active"]⟩

/-- `transformProductName` (lines 224-236): required; trim only. -/
def transformProductName (value : Option String) (rowIndex : Nat) :
    FieldRes (Option String) :=
  if isBlank value then
    ⟨none, [⟨rowIndex, "product_name", value, "Product name is required"⟩], []⟩
  else ⟨some (jsTrim (value.getD "")), [], []⟩

/-- `transformUnitPrice` (lines 238-265): required; strip `$` and `,`, trim,
`parseFloat`; `NaN` or negative is a validation error; otherwise print with
`toFixed(2)`. -/
def transformUnitPrice (value : Option String) (rowIndex : Nat) :
    FieldRes (Option String) :=
  if isBlank value then
    ⟨none, [⟨rowIndex, "unit_price", value, "Unit price is required"⟩], []⟩
  else
    let cleaned := jsTrimL ((value.getD "").toList.filter fun c => !(c == '$' || c == ','))
    match jsParseFloatL cleaned with
    | some (m, e) =>
      if m < 0 then
        ⟨none, [⟨rowIndex, "unit_price", value, "Invalid price format or negative value"⟩], []⟩
      else ⟨some (toFixed2 m e), [], []⟩
    | none =>
      ⟨none, [⟨rowIndex, "unit_price", value, "Invalid price format or negative value"⟩], []⟩

/-- `transformQuantity` (lines 267-280): empty becomes `0`; `parseInt`; `NaN`
or negative becomes `0` plus a warning (never a validation error). -/
def transformQuantity (value : Option String) (rowIndex : Nat) : FieldRes Int :=
  if isBlank value then ⟨0, [], []⟩
  else
    match jsParseIntL (value.getD "").toList with
    | some q =>
      if q < 0 then
        ⟨0, [], ["Row " ++ toString rowIndex ++ ": Invalid quantity: \"" ++
          value.getD "" ++ "\""]⟩
      else ⟨q, [], []⟩
    | none =>
      ⟨0, [], ["Row " ++ toString rowIndex ++ ": Invalid quantity: \"" ++
        value.getD "" ++ "\""]⟩

/-- `transformOrderId` (lines 286-309): as `transformCustomerId` with the
`ORD` prefix. -/
def transformOrderId (value : Option String) (rowIndex : Nat) :
    FieldRes (Option String) :=
  if isBlank value then
    ⟨none, [], ["Row " ++ toString rowIndex ++ ": Empty order_id, will need to be generated"]⟩
  else
    let cleaned := ((value.getD "").toList.filter alnumB).map toUpperC
    let cleaned2 := if startsWithORD cleaned then cleaned else 'O' :: 'R' :: 'D' :: cleaned
    if ordFormat cleaned2 then ⟨some (String.mk cleaned2), [], []⟩
    else
      ⟨none, [⟨rowIndex, "order_id", value, "Invalid format, must be ORD followed by numbers"⟩], []⟩

/-- `transformOrderDate` (lines 311-313): same logic as the registration
date. -/
def transformOrderDate (today : String) (value : Option String) (rowIndex : Nat) :
    FieldRes String :=
  transformRegisteredAt today value rowIndex

/-- The `statusMap` of `transformOrderStatus` (lines 316-323). -/
def orderStatusMap : List (String × String) :=
  [("pending", "Pending"), ("processing", "Processing"), ("shipped", "Shipped"),
   ("delivered", "Delivered"), ("cancelled", "Cancelled"), ("canceled", "Cancelled")]

/-- `transformOrderStatus` (lines 315-327): `(value || 'pending')`, trimmed
and lowercased, indexes the `statusMap` object literal of that method
(consulting the prototype chain on an own-table miss, `jsIndex`);
`statusMap[cleaned] || 'Pending'` returns a truthy access — a table value
or an inherited `Object.prototype` member — and defaults to `Pending` on
an `undefined` (or falsy) one. -/
def transformOrderStatus (value : Option String) (rowIndex : Nat) : FieldRes JsMember :=
  let base := if truthy value then value.getD "" else "pending"
  let cleaned := String.mk ((jsTrimL base.toList).map toLowerC)
  match jsIndex orderStatusMap cleaned with
  | some mapped =>
    if jsMemberTruthy mapped then ⟨mapped, [], []⟩ else ⟨.strVal "Pending", [], []⟩
  | none => ⟨.strVal "Pending", [], []⟩

/-! ## Record transformation, deduplication, validation -/

/-- One transformed customer record (the object literal of lines 342-353).
`state_code` and `status` carry what their normalizers actually return: a
string in the ordinary cases, but an inherited `Object.prototype` member
when the raw value hit the prototype chain. -/
structure Customer where
  customer_id : Option String
  full_name : Option String
  email : Option String
  phone_number : Option String
  city : Option String
  state_code : Option JsMember
  registered_at : String
  status : JsMember
  email_verified : Bool
  rowIndex : Nat
deriving Repr, DecidableEq

/-- JS `row[i]` over string-or-null cells: out-of-range reads give
`undefined`, which every normalizer treats like `null`. -/
def cellAt (row : List (Option String)) (i : Nat) : Option String :=
  (row.get? i).join

/-- The per-row body of `transformCustomers` (lines 339-355): one customer
object, the validation errors pushed, and the warnings logged, in field
order. -/
def transformRow (today : String) (row : List (Option String)) (rowIndex : Nat) :
    Customer × List VError × List String :=
  let rid := transformCustomerId (cellAt row 0) rowIndex
  let rname := transformFullName (cellAt row 1) rowIndex
  let remail := transformEmail (cellAt row 2) rowIndex
  let rphone := transformPhone (cellAt row 3) rowIndex
  let rcity := transformCity (cellAt row 4) rowIndex
  let rstate := transformStateCode (cellAt row 5) rowIndex
  let rdate := transformRegisteredAt today (cellAt row 6) rowIndex
  let rstatus := transformStatus (cellAt row 7) rowIndex
  (⟨rid.val, rname.val, remail.val, rphone.val, rcity.val, rstate.val,
      rdate.val, rstatus.val, false, rowIndex⟩,
    rid.errs ++ rname.errs ++ remail.errs ++ rphone.errs ++ rcity.errs ++
      rstate.errs ++ rdate.errs ++ rstatus.errs,
    rid.warns ++ rname.warns ++ remail.warns ++ rphone.warns ++ rcity.warns ++
      rstate.warns ++ rdate.warns ++ rstatus.warns)

/-- The `data.forEach((row, index) => ...)` loop of `transformCustomers`
(lines 333-362): `rowIndex = index + 2`; every row yields exactly one
record; errors accumulate across rows. -/
def transformCustomersGo (today : String) (idx : Nat) :
    List (List (Option String)) → List Customer × List VError
  | [] => ([], [])
  | row :: rest =>
    let r := transformRow today row (idx + 2)
    let res := transformCustomersGo today (idx + 1) rest
    (r.1 :: res.1, r.2.1 ++ res.2)

/-- `transformCustomers` (lines 333-362). -/
def transformCustomers (today : String) (data : List (List (Option String))) :
    List Customer × List VError :=
  transformCustomersGo today 0 data

/-- One entry of the `duplicates` log of `deduplicateCustomers`
(lines 389-393). -/
structure DupEntry where
  row : Nat
  duplicateOf : Nat
  key : String
deriving Repr, DecidableEq

/-- `const key = customer.email || customer.customer_id` (line 380): JS `||`
takes the email when it is truthy (non-null, nonempty), otherwise the
customer id. -/
def dedupKey (c : Customer) : Option String :=
  if truthy c.email then c.email else c.customer_id

/-- The `customers.forEach` loop of `deduplicateCustomers` (lines 379-399):
`seen` is a real JS `Map` (`new Map()`, line 371) whose `has`/`get`/`set`
consult only its own entries — a `Map`, unlike an object literal, has no
prototype-chain lookup on string keys — so an association list models it
exactly; keyless records pass through; first occurrence wins. -/
def dedupGo (seen : List (String × Nat)) :
    List Customer → List Customer × List DupEntry
  | [] => ([], [])
  | customer :: rest =>
    let key := dedupKey customer
    if truthy key then
      let k := key.getD ""
      match seen.lookup k with
      | some orig =>
        let res := dedupGo seen rest
        (res.1, ⟨customer.rowIndex, orig, k⟩ :: res.2)
      | none =>
        let res := dedupGo ((k, customer.rowIndex) :: seen) rest
        (customer :: res.1, res.2)
    else
      let res := dedupGo seen rest
      (customer :: res.1, res.2)

/-- `deduplicateCustomers` (lines 368-410).  `config.etl.deduplicateData`
is `true` in `etl/config.js`, so the dedup body runs; the function returns
the unique records and the duplicate log. -/
def deduplicateCustomers (customers : List Customer) :
    List Customer × List DupEntry :=
  dedupGo [] customers

/-- `this.validationErrors.filter(e => e.row === record._rowIndex)`
(line 424). -/
def recordErrors (errors : List VError) (c : Customer) : List VError :=
  errors.filter fun e => e.row == c.rowIndex

/-- `validate` (lines 416-446): partition records into valid and invalid by
whether any validation error was recorded for their row; invalid records
carry their errors. -/
def validate (errors : List VError) :
    List Customer → List Customer × List (Customer × List VError)
  | [] => ([], [])
  | record :: rest =>
    let res := validate errors rest
    if (recordErrors errors record).length > 0 then
      (res.1, (record, recordErrors errors record) :: res.2)
    else (record :: res.1, res.2)

/-! ## JS dynamic-typing model for `transformQuantity` re-application

`transformQuantity` returns a number, so feeding its output back into it
makes `value.trim()` throw; this tiny dynamic-value model captures that. -/

inductive JsVal where
  | vNull : JsVal
  | vStr : String → JsVal
  | vNum : Int → JsVal
deriving Repr, DecidableEq

/-- `transformQuantity` under JS dynamic typing: on a string the typed model
above applies; on a truthy (nonzero) number, `value.trim()` throws a
`TypeError`; falsy values take the `!value` branch and return `0`. -/
def jsTransformQuantity (v : JsVal) (rowIndex : Nat) :
    Except String (JsVal × List String) :=
  match v with
  | .vNull => .ok (.vNum 0, [])
  | .vNum n =>
    if n = 0 then .ok (.vNum 0, [])
    else .error "TypeError: value.trim is not a function"
  | .vStr s =>
    let r := transformQuantity (some s) rowIndex
    .ok (.vNum r.val, r.warns)

/-! ## C1: validate partitions records by fatal errors -/

/-- C1: For every list of candidate records, the validator places a record in
the invalid set if and only if at least one fatal validation error was
recorded for that record's rowIndex during transformation; equivalently, a
record appears in the valid set iff its fatal-error list is empty, and every
input record appears in exactly one of the two sets (the two output lengths
sum to the input length). -/
theorem validate_partitions (errors : List VError) (data : List Customer) :
    (∀ c : Customer,
      c ∈ (validate errors data).1 ↔ c ∈ data ∧ recordErrors errors c = []) ∧
    (∀ (c : Customer) (es : List VError),
      (c, es) ∈ (validate errors data).2 ↔
        c ∈ data ∧ es = recordErrors errors c ∧ recordErrors errors c ≠ []) ∧
    (validate errors data).1.length + (validate errors data).2.length = data.length := by
  induction data with
  | nil => simp [validate]
  | cons r rest ih =>
    obtain ⟨ih1, ih2, ih3⟩ := ih
    by_cases h : (recordErrors errors r).length > 0
    · have hne : recordErrors errors r ≠ [] := by
        intro hnil
        rw [hnil] at h
        simp at h
      refine ⟨?_, ?_, ?_⟩
      · intro c
        rw [validate, if_pos h]
        rw [ih1 c]
        constructor
        · exact fun hh => ⟨List.mem_cons_of_mem _ hh.1, hh.2⟩
        · rintro ⟨hmem, hemp⟩
          rcases List.mem_cons.mp hmem with heq | hmem2
          · subst heq
            exact absurd hemp hne
          · exact ⟨hmem2, hemp⟩
      · intro c es
        rw [validate, if_pos h]
        simp only [List.mem_cons, Prod.mk.injEq]
        rw [ih2 c es]
        constructor
        · rintro (⟨hc, hes⟩ | ⟨hmem, hes, hne2⟩)
          · subst hc; subst hes
            exact ⟨Or.inl rfl, rfl, hne⟩
          · exact ⟨Or.inr hmem, hes, hne2⟩
        · rintro ⟨hmem, hes, hne2⟩
          rcases hmem with heq | hmem2
          · subst heq
            exact Or.inl ⟨rfl, hes⟩
          · exact Or.inr ⟨hmem2, hes, hne2⟩
      · rw [validate, if_pos h]
        simp only [List.length_cons]
        omega
    · have hemp : recordErrors errors r = [] := by
        rcases heq : recordErrors errors r with _ | ⟨e, es⟩
        · rfl
        · rw [heq] at h; simp at h
      refine ⟨?_, ?_, ?_⟩
      · intro c
        rw [validate, if_neg h]
        simp only [List.mem_cons]
        rw [ih1 c]
        constructor
        · rintro (hc | ⟨hmem, he⟩)
          · subst hc
            exact ⟨Or.inl rfl, hemp⟩
          · exact ⟨Or.inr hmem, he⟩
        · rintro ⟨hmem, he⟩
          rcases hmem with hc | hmem2
          · exact Or.inl hc
          · exact Or.inr ⟨hmem2, he⟩
      · intro c es
        rw [validate, if_neg h]
        rw [ih2 c es]
        constructor
        · rintro ⟨hmem, hes, hne2⟩
          exact ⟨List.mem_cons_of_mem _ hmem, hes, hne2⟩
        · rintro ⟨hmem, hes, hne2⟩
          rcases List.mem_cons.mp hmem with hc | hmem2
          · subst hc
            exact absurd hemp hne2
          · exact ⟨hmem2, hes, hne2⟩
      · rw [validate, if_neg h]
        simp only [List.length_cons]
        omega

/-! ## C2: the record transformer is total, one record per row -/

theorem transformCustomersGo_length (today : String) :
    ∀ (idx : Nat) (data : List (List (Option String))),
      (transformCustomersGo today idx data).1.length = data.length := by
  intro idx data
  induction data generalizing idx with
  | nil => rfl
  | cons row rest ih =>
    rw [transformCustomersGo]
    simp only [List.length_cons]
    rw [ih (idx + 1)]

/-- C2: For every input row list over string-or-null cells, including rows
entirely devoid of values, the record transformer returns (it is a total
function) and produces exactly one candidate record per input row: the
number of candidate records always equals the number of input rows. -/
theorem transformCustomers_total (today : String) (data : List (List (Option String))) :
    (transformCustomers today data).1.length = data.length :=
  transformCustomersGo_length today 0 data

/-! ## C5: phone normalization -/

theorem exists_len_seven {α : Type} (l : List α) (h : l.length = 7) :
    ∃ a b c d e f g, l = [a, b, c, d, e, f, g] := by
  rcases l with _ | ⟨a, l⟩
  · simp at h
  rcases l with _ | ⟨b, l⟩
  · simp at h
  rcases l with _ | ⟨c, l⟩
  · simp at h
  rcases l with _ | ⟨d, l⟩
  · simp at h
  rcases l with _ | ⟨e, l⟩
  · simp at h
  rcases l with _ | ⟨f, l⟩
  · simp at h
  rcases l with _ | ⟨g, l⟩
  · simp at h
  have hlen : l.length = 0 := by
    simp only [List.length_cons] at h
    omega
  have : l = [] := List.eq_nil_of_length_eq_zero hlen
  subst this
  exact ⟨a, b, c, d, e, f, g, rfl⟩

/-- The spec-side output shape of the phone normalizer as the code actually
produces it: either exactly ten digits, or eight characters in the form
`XXX-XXXX` (three digits, a dash, four digits). -/
def dashPhone : List Char → Bool
  | [a, b, c, h, d, e, f, g] => h == '-' && [a, b, c, d, e, f, g].all digitB
  | _ => false

/-- Every non-null output of `transformPhone` is ten digits or `XXX-XXXX`. -/
def phoneShapeOk (s : String) : Bool :=
  (s.toList.length == 10 && s.toList.all digitB) || dashPhone s.toList

theorem all_filter_self (p : Char → Bool) (l : List Char) :
    (l.filter p).all p = true := by
  rw [List.all_eq_true]
  intro c hc
  exact (List.mem_filter.mp hc).2

/-- C5 counterexample: the code formats 7-digit phones as `XXX-XXXX` (with a
dash) rather than returning the bare digits, and it has no 11-digit
leading-country-code handling, so `"(555) 0106"` maps to `"555-0106"` (not
`"5550106"`) and `"+1-555-0118"` (8 digits after stripping) maps to null
plus a warning (not `"5550118"`). -/
theorem transformPhone_counterexample :
    (transformPhone (some "(555) 0106") 4).val = some "555-0106" ∧
    (some "555-0106" : Option String) ≠ some "5550106" ∧
    (transformPhone (some "+1-555-0118") 4).val = none ∧
    (transformPhone (some "+1-555-0118") 4).warns ≠ [] := by
  refine ⟨by decide, by decide, by decide, by decide⟩

/-- C5 amended: the phone normalizer strips non-digits and returns the ten
digits unchanged when exactly ten remain, formats seven digits as
`XXX-XXXX`, and otherwise (any other digit count, with no country-code
handling) returns null plus a warning; in particular `"(555) 0106"` maps to
`"555-0106"`, `"5550107"` to `"555-0107"`, and `"+1-555-0118"` and
`"555-CALL"` to null plus a warning; every non-null output is either
exactly ten digits or the eight-character `XXX-XXXX` form. -/
theorem transformPhone_other (v : Option String) (i : Nat) (hb : isBlank v = false)
    (h7 : ((v.getD "").toList.filter digitB).length ≠ 7)
    (h10 : ((v.getD "").toList.filter digitB).length ≠ 10) :
    transformPhone v i =
      ⟨none, [], ["Row " ++ toString i ++ ": Invalid phone format: \"" ++
        v.getD "" ++ "\""]⟩ := by
  simp only [transformPhone]
  rw [if_neg (by simp [hb]), if_neg h7, if_neg h10]

theorem transformPhone_amended (v : Option String) (i : Nat) :
    ((transformPhone v i).val.all phoneShapeOk = true) ∧
    (transformPhone (some "(555) 0106") i).val = some "555-0106" ∧
    (transformPhone (some "5550107") i).val = some "555-0107" ∧
    ((transformPhone (some "+1-555-0118") i).val = none ∧
      (transformPhone (some "+1-555-0118") i).warns ≠ []) ∧
    ((transformPhone (some "555-CALL") i).val = none ∧
      (transformPhone (some "555-CALL") i).warns ≠ []) := by
  have e1 := transformPhone_other (some "+1-555-0118") i (by decide) (by decide) (by decide)
  have e2 := transformPhone_other (some "555-CALL") i (by decide) (by decide) (by decide)
  refine ⟨?_, rfl, rfl, ⟨by rw [e1], by rw [e1]; simp⟩, ⟨by rw [e2], by rw [e2]; simp⟩⟩
  simp only [transformPhone]
  by_cases hb : isBlank v = true
  · rw [if_pos hb]; rfl
  · rw [if_neg hb]
    have hall : ((v.getD "").toList.filter digitB).all digitB = true :=
      all_filter_self digitB _
    by_cases h7 : ((v.getD "").toList.filter digitB).length = 7
    · rw [if_pos h7]
      obtain ⟨a, b, c, d, e, f, g, heq⟩ := exists_len_seven _ h7
      rw [heq]
      rw [heq] at hall
      simp only [Option.all_some]
      rw [phoneShapeOk]
      have : dashPhone (String.mk ([a, b, c] ++ '-' :: [d, e, f, g])).toList = true := by
        simp only [toList_mk]
        show dashPhone [a, b, c, '-', d, e, f, g] = true
        simp only [dashPhone]
        simpa using hall
      simp only [List.take, List.drop] at *
      rw [Bool.or_eq_true]
      exact Or.inr this
    · rw [if_neg h7]
      by_cases h10 : ((v.getD "").toList.filter digitB).length = 10
      · rw [if_pos h10]
        simp only [Option.all_some]
        rw [phoneShapeOk, Bool.or_eq_true]
        left
        simp only [toList_mk]
        rw [h10, hall]
        simp
      · rw [if_neg h10]
        rfl

/-! ## C6: quantity is not a fatal field -/

/-- C6 counterexample: an empty quantity yields `0` with no error, the
value `"0"` (which is `≤ 0`) is accepted silently as `0`, and `"-3"` yields
`0` with only a logger warning — no fatal validation error is recorded in
any of these cases, so the record is not excluded from the valid set on
account of its quantity. -/
theorem transformQuantity_counterexample :
    transformQuantity none 7 = ⟨0, [], []⟩ ∧
    transformQuantity (some "0") 7 = ⟨0, [], []⟩ ∧
    (transformQuantity (some "-3") 7).val = 0 ∧
    (transformQuantity (some "-3") 7).errs = [] ∧
    (transformQuantity (some "-3") 7).warns ≠ [] := by
  refine ⟨by decide, by decide, by decide, by decide, by decide⟩

/-- C6 amended: quantity is optional with default `0`: the normalizer never
records a fatal validation error; empty input yields `0` silently;
non-numeric or negative input yields `0` plus a logger warning; any
nonnegative parsed value (including `0`) is accepted silently. -/
theorem transformQuantity_amended (v : Option String) (i : Nat) :
    (transformQuantity v i).errs = [] ∧
    (isBlank v = true → transformQuantity v i = ⟨0, [], []⟩) ∧
    (isBlank v = false → jsParseIntL (v.getD "").toList = none →
      (transformQuantity v i).val = 0 ∧ (transformQuantity v i).warns ≠ []) ∧
    (∀ q : Int, isBlank v = false → jsParseIntL (v.getD "").toList = some q → q < 0 →
      (transformQuantity v i).val = 0 ∧ (transformQuantity v i).warns ≠ []) ∧
    (∀ q : Int, isBlank v = false → jsParseIntL (v.getD "").toList = some q → 0 ≤ q →
      transformQuantity v i = ⟨q, [], []⟩) := by
  refine ⟨?_, ?_, ?_, ?_, ?_⟩
  · rw [transformQuantity]
    by_cases hb : isBlank v = true
    · rw [if_pos hb]
    · rw [if_neg hb]
      rcases hp : jsParseIntL (v.getD "").toList with _ | q
      · rfl
      · by_cases hq : q < 0
        · simp [hq]
        · simp [hq]
  · intro hb
    rw [transformQuantity, if_pos hb]
  · intro hb hp
    rw [transformQuantity, if_neg (by simp [hb])]
    simp only [hp]
    exact ⟨by simp, by simp⟩
  · intro q hb hp hq
    rw [transformQuantity, if_neg (by simp [hb])]
    simp only [hp]
    rw [if_pos hq]
    exact ⟨rfl, by simp⟩
  · intro q hb hp hq
    rw [transformQuantity, if_neg (by simp [hb])]
    simp only [hp]
    rw [if_neg (by omega)]

/-- Witness for C6 amended at `v = some "-3"`. -/
theorem transformQuantity_amended_witness :
    (transformQuantity (some "-3") 7).val = 0 ∧
    (transformQuantity (some "-3") 7).warns ≠ [] :=
  (transformQuantity_amended (some "-3") 7).2.2.2.1 (-3) (by decide) (by decide) (by decide)

/-! ## C7: customer status normalization -/

theorem jsIndex_own {own : List (String × String)} {k v : String}
    (h : own.lookup k = some v) : jsIndex own k = some (.strVal v) := by
  simp only [jsIndex, h]

theorem jsIndex_proto {own : List (String × String)} {k : String}
    (h1 : own.lookup k = none) (h2 : k ∈ objectProtoKeys) :
    jsIndex own k = some (.protoMember k) := by
  simp only [jsIndex, h1]
  rw [if_pos h2]

theorem jsIndex_undef {own : List (String × String)} {k : String}
    (h1 : own.lookup k = none) (h2 : k ∉ objectProtoKeys) :
    jsIndex own k = none := by
  simp only [jsIndex, h1]
  rw [if_neg h2]

/-- A string-valued access always comes from an own property: the
prototype chain supplies no strings. -/
theorem jsIndex_strVal {own : List (String × String)} {k t : String}
    (h : jsIndex own k = some (.strVal t)) : own.lookup k = some t := by
  rcases hl : own.lookup k with _ | v
  · simp only [jsIndex, hl] at h
    split at h <;> simp at h
  · simp only [jsIndex, hl, Option.some.injEq, JsMember.strVal.injEq] at h
    exact congrArg some h

/-- C7 counterexample: `"no"` is not (case-insensitively) one of `Active`,
`Inactive`, `Pending`, yet the normalizer maps it to `"Inactive"` with no
warning rather than defaulting to `"Active"` with a warning. -/
theorem transformStatus_counterexample :
    (String.mk ((jsTrimL "no".toList).map toLowerC) ∉
      (["active", "inactive", "pending"] : List String)) ∧
    transformStatus (some "no") 3 = ⟨.strVal "Inactive", [], []⟩ ∧
    JsMember.strVal "Inactive" ≠ .strVal "Active" := by
  refine ⟨by decide, by decide, by decide⟩

theorem statusMap_lookup_none (k : String)
    (h : k ∉ (["active", "inactive", "pending", "yes", "no", "1", "0"] : List String)) :
    statusMap.lookup k = none := by
  simp only [List.mem_cons, not_or] at h
  obtain ⟨h1, h2, h3, h4, h5, h6, h7, -⟩ := h
  have e1 : (k == "active") = false := beq_eq_false_iff_ne.mpr h1
  have e2 : (k == "inactive") = false := beq_eq_false_iff_ne.mpr h2
  have e3 : (k == "pending") = false := beq_eq_false_iff_ne.mpr h3
  have e4 : (k == "yes") = false := beq_eq_false_iff_ne.mpr h4
  have e5 : (k == "no") = false := beq_eq_false_iff_ne.mpr h5
  have e6 : (k == "1") = false := beq_eq_false_iff_ne.mpr h6
  have e7 : (k == "0") = false := beq_eq_false_iff_ne.mpr h7
  simp [statusMap, List.lookup, e1, e2, e3, e4, e5, e6, e7]

/-- Every `Object.prototype` member name misses the seven own keys of
`statusMap`. -/
theorem proto_not_statusKey {k : String} (h : k ∈ objectProtoKeys) :
    k ∉ (["active", "inactive", "pending", "yes", "no", "1", "0"] : List String) := by
  fin_cases h <;> decide

/-- C7 amended: the status normalizer maps empty input to `Active`
silently; a trimmed, lowercased value that is an own key of the variant
table `{active → Active, inactive → Inactive, pending → Pending,
yes → Active, no → Inactive, 1 → Active, 0 → Inactive}` is mapped
accordingly with no warning; a value whose trimmed, lowercased form names
an inherited `Object.prototype` member (`constructor`, `toString`, ...)
finds that member through the prototype chain and returns it — a function,
not a status string — again with no warning; only values that hit neither
the table nor the prototype chain default to `Active` with a warning. -/
theorem transformStatus_amended (s : String) (i : Nat) :
    transformStatus none i = ⟨.strVal "Active", [], []⟩ ∧
    (jsTrimL s.toList ≠ [] →
      String.mk ((jsTrimL s.toList).map toLowerC) ∉
        (["active", "inactive", "pending", "yes", "no", "1", "0"] : List String) →
      String.mk ((jsTrimL s.toList).map toLowerC) ∉ objectProtoKeys →
      (transformStatus (some s) i).val = .strVal "Active" ∧
        (transformStatus (some s) i).warns ≠ []) ∧
    (jsTrimL s.toList ≠ [] →
      String.mk ((jsTrimL s.toList).map toLowerC) ∈ objectProtoKeys →
      transformStatus (some s) i =
        ⟨.protoMember (String.mk ((jsTrimL s.toList).map toLowerC)), [], []⟩) ∧
    transformStatus (some "constructor") i = ⟨.protoMember "constructor", [], []⟩ ∧
    transformStatus (some "YES") i = ⟨.strVal "Active", [], []⟩ ∧
    transformStatus (some "No") i = ⟨.strVal "Inactive", [], []⟩ ∧
    transformStatus (some "1") i = ⟨.strVal "Active", [], []⟩ ∧
    transformStatus (some "0") i = ⟨.strVal "Inactive", [], []⟩ ∧
    transformStatus (some " pending ") i = ⟨.strVal "Pending", [], []⟩ := by
  refine ⟨rfl, ?_, ?_, rfl, rfl, rfl, rfl, rfl, rfl⟩
  · intro hne hmem hpk
    have hlk := statusMap_lookup_none _ hmem
    have hj := jsIndex_undef hlk hpk
    simp only [transformStatus, Option.getD_some]
    rw [if_neg (by simp [isBlank]; exact hne)]
    simp only [hj]
    exact ⟨by simp, by simp⟩
  · intro hne hmem
    have hlk := statusMap_lookup_none _ (proto_not_statusKey hmem)
    have hj := jsIndex_proto hlk hmem
    simp only [transformStatus, Option.getD_some]
    rw [if_neg (by simp [isBlank]; exact hne)]
    simp only [hj]
    rfl

/-- Witness for C7 amended at `s = "Retired"`. -/
theorem transformStatus_amended_witness :
    (transformStatus (some "Retired") 3).val = .strVal "Active" ∧
    (transformStatus (some "Retired") 3).warns ≠ [] :=
  (transformStatus_amended "Retired" 3).2.1 (by decide) (by decide) (by decide)

/-! ## C3: the deduplication key prefers the email, not the identifier -/

/-- C3 counterexample: a record whose primary identifier `C1` is present and
non-null but whose deduplication key is nevertheless the normalized email:
`customer.email || customer.customer_id` takes the email first. -/
theorem dedupKey_counterexample :
    dedupKey ⟨some "C1", some "Ann", some "a@b.com", none, none, none,
      "2024-01-01", .strVal "Active", false, 2⟩ = some "a@b.com" ∧
    (some "a@b.com" : Option String) ≠ some "C1" := by
  refine ⟨by decide, by decide⟩

/-- C3 amended: the deduplication key is the normalized email whenever the
email is present and nonempty, and only when the email is absent (or empty,
both falsy in JS) does it fall back to the normalized primary identifier. -/
theorem dedupKey_email_precedence (c : Customer) :
    (∀ e : String, c.email = some e → e ≠ "" → dedupKey c = some e) ∧
    (c.email = none → dedupKey c = c.customer_id) ∧
    (c.email = some "" → dedupKey c = c.customer_id) := by
  refine ⟨?_, ?_, ?_⟩
  · intro e he hne
    rw [dedupKey, he]
    rw [if_pos (by simp [truthy, hne])]
  · intro he
    rw [dedupKey, he, if_neg (by simp [truthy])]
  · intro he
    rw [dedupKey, he, if_neg (by simp [truthy])]

/-- Witness for C3 amended: a record with both fields present keys on the
email. -/
theorem dedupKey_email_precedence_witness :
    dedupKey ⟨some "C9", some "Bo", some "x@y.zw", none, none, none,
      "2024-01-01", .strVal "Active", false, 5⟩ = some "x@y.zw" :=
  (dedupKey_email_precedence _).1 "x@y.zw" rfl (by decide)

/-! ## C8: deduplication stability -/

/-- C8: for candidates [A, B, C] processed in that order, where A and B
derive the same (truthy) deduplication key k1 and C derives a different key
k2, deduplication returns unique == [A, C] and exactly one duplicate-log
entry, recording B's rowIndex, the colliding key k1, and A's rowIndex as
the surviving original. -/
theorem dedup_stability (A B C : Customer) (k1 k2 : String)
    (hA : dedupKey A = some k1) (hB : dedupKey B = some k1) (hC : dedupKey C = some k2)
    (h1 : k1 ≠ "") (h2 : k2 ≠ "") (hne : k1 ≠ k2) :
    deduplicateCustomers [A, B, C] = ([A, C], [⟨B.rowIndex, A.rowIndex, k1⟩]) := by
  have hk1 : (k1 == "") = false := beq_eq_false_iff_ne.mpr h1
  have hk2 : (k2 == "") = false := beq_eq_false_iff_ne.mpr h2
  have hk21 : (k2 == k1) = false := beq_eq_false_iff_ne.mpr (Ne.symm hne)
  rw [deduplicateCustomers]
  rw [dedupGo]
  simp only [hA, truthy, hk1, Option.getD_some, Bool.not_false, if_true, List.lookup]
  rw [dedupGo]
  simp only [hB, truthy, hk1, Option.getD_some, Bool.not_false, if_true, List.lookup,
    beq_self_eq_true]
  rw [dedupGo]
  simp only [hC, truthy, hk2, Option.getD_some, Bool.not_false, if_true, List.lookup, hk21]
  rw [dedupGo]

/-- Witness for C8 at three concrete records keyed by email. -/
theorem dedup_stability_witness :
    deduplicateCustomers
      [⟨some "C1", some "Ann", some "a@a.com", none, none, none, "2024-01-01", .strVal "Active", false, 2⟩,
       ⟨some "C2", some "Ann", some "a@a.com", none, none, none, "2024-01-01", .strVal "Active", false, 3⟩,
       ⟨some "C3", some "Bob", some "b@b.com", none, none, none, "2024-01-01", .strVal "Active", false, 4⟩] =
      ([⟨some "C1", some "Ann", some "a@a.com", none, none, none, "2024-01-01", .strVal "Active", false, 2⟩,
        ⟨some "C3", some "Bob", some "b@b.com", none, none, none, "2024-01-01", .strVal "Active", false, 4⟩],
       [⟨3, 2, "a@a.com"⟩]) :=
  dedup_stability _ _ _ "a@a.com" "b@b.com" (by decide) (by decide) (by decide)
    (by decide) (by decide) (by decide)

/-! ## C10: all-digit identifiers are accepted with the required prefix -/

/-- C10: for every raw identifier whose characters, after stripping
non-alphanumerics and uppercasing, form a nonempty digit string, both
identifier normalizers accept it with no validation error, prepending the
required prefix: `transformCustomerId` returns `C` followed by those digits
and `transformOrderId` returns `ORD` followed by those digits. -/
theorem identifier_digit_acceptance (s : String) (i : Nat)
    (hne : ((s.toList.filter alnumB).map toUpperC) ≠ [])
    (hdig : ((s.toList.filter alnumB).map toUpperC).all digitB = true) :
    transformCustomerId (some s) i =
      ⟨some (String.mk ('C' :: (s.toList.filter alnumB).map toUpperC)), [], []⟩ ∧
    transformOrderId (some s) i =
      ⟨some (String.mk ('O' :: 'R' :: 'D' :: (s.toList.filter alnumB).map toUpperC)), [], []⟩ := by
  have hblank : isBlank (some s) = false := by
    have hf : s.toList.filter alnumB ≠ [] := by
      intro hnil
      rw [hnil] at hne
      exact hne rfl
    obtain ⟨c, hc⟩ := List.exists_mem_of_ne_nil _ hf
    obtain ⟨hcs, hcal⟩ := List.mem_filter.mp hc
    have := jsTrimL_ne_nil hcs (alnumB_not_ws hcal)
    simp [isBlank]
    exact this
  rcases heq : (s.toList.filter alnumB).map toUpperC with _ | ⟨x, xs⟩
  · exact absurd heq hne
  · rw [heq] at hdig
    simp only [List.all_cons, Bool.and_eq_true] at hdig
    have hx : (x == 'C') = false := by
      rw [beq_char_iff_toNat]
      have := hdig.1
      simp [digitB] at this
      have hC : ('C').toNat = 67 := rfl
      rw [hC]
      simp
      omega
    have hxO : (x == 'O') = false := by
      rw [beq_char_iff_toNat]
      have := hdig.1
      simp [digitB] at this
      have hO : ('O').toNat = 79 := rfl
      rw [hO]
      simp
      omega
    constructor
    · rw [transformCustomerId, if_neg (by simp [hblank])]
      simp only [Option.getD_some, heq]
      rw [show startsWithC (x :: xs) = false from hx]
      simp only [Bool.false_eq_true, if_false]
      rw [show cidFormat ('C' :: x :: xs) = true from by
        simp only [cidFormat, List.all_cons, hdig.1, hdig.2]
        simp]
      simp
    · rw [transformOrderId, if_neg (by simp [hblank])]
      simp only [Option.getD_some, heq]
      rw [show startsWithORD (x :: xs) = false from ?_]
      · simp only [Bool.false_eq_true, if_false]
        rw [show ordFormat ('O' :: 'R' :: 'D' :: x :: xs) = true from by
          simp only [ordFormat, List.all_cons, hdig.1, hdig.2]
          simp]
        simp
      · cases xs with
        | nil => simp [startsWithORD, hxO]
        | cons y ys =>
          cases ys with
          | nil => simp [startsWithORD, hxO]
          | cons z zs => simp [startsWithORD, hxO]

/-- Witness for C10 at the raw value `"123"`. -/
theorem identifier_digit_acceptance_witness :
    transformCustomerId (some "123") 1 = ⟨some "C123", [], []⟩ ∧
    transformOrderId (some "123") 1 = ⟨some "ORD123", [], []⟩ :=
  identifier_digit_acceptance "123" 1 (by decide) (by decide)

/-! ## C4: the date-parsing table -/

theorem transformRegisteredAt_parsed (today : String) (v : Option String) (i : Nat)
    (y m d : Nat) (hb : isBlank v = false)
    (hc : dateCandidate (v.getD "").toList = some (y, m, d))
    (hv : validYmd y m d = true) :
    (transformRegisteredAt today v i).val =
      isoOfYmd (rollYmd y m d).1 (rollYmd y m d).2.1 (rollYmd y m d).2.2 := by
  simp only [transformRegisteredAt]
  rw [if_neg (by simp [hb])]
  simp only [hc]
  rw [if_pos hv]

theorem transformRegisteredAt_invalid_value (today : String) (v : Option String) (i : Nat)
    (y m d : Nat) (hb : isBlank v = false)
    (hc : dateCandidate (v.getD "").toList = some (y, m, d))
    (hv : validYmd y m d = false) :
    (transformRegisteredAt today v i).val = today ∧
      (transformRegisteredAt today v i).warns ≠ [] := by
  simp only [transformRegisteredAt]
  rw [if_neg (by simp [hb])]
  simp only [hc]
  rw [if_neg (by simp [hv])]
  exact ⟨by simp, by simp⟩

theorem transformRegisteredAt_invalid_format (today : String) (v : Option String) (i : Nat)
    (hb : isBlank v = false) (hc : dateCandidate (v.getD "").toList = none) :
    (transformRegisteredAt today v i).val = today ∧
      (transformRegisteredAt today v i).warns ≠ [] := by
  simp only [transformRegisteredAt]
  rw [if_neg (by simp [hb])]
  simp only [hc]
  exact ⟨by simp, by simp⟩

/-- C4 counterexample: on `"01-15-2024"` the dash parser is day-first, so it
builds the invalid date `2024-15-01` and falls back to today's date plus a
warning (not `"2024-01-15"`); and `"2024/01/20"` matches none of the three
formats (there is no `YYYY/MM/DD` branch), so it also falls back to today's
date plus a warning (not `"2024-01-20"`). Shown at `today = "1999-12-31"`. -/
theorem transformRegisteredAt_counterexample :
    (transformRegisteredAt "1999-12-31" (some "01-15-2024") 5).val = "1999-12-31" ∧
    ("1999-12-31" : String) ≠ "2024-01-15" ∧
    (transformRegisteredAt "1999-12-31" (some "2024/01/20") 5).val = "1999-12-31" ∧
    ("1999-12-31" : String) ≠ "2024-01-20" := by
  refine ⟨by decide, by decide, by decide, by decide⟩

/-- C4 amended: the date normalizer maps `"2023-01-15"` to `"2023-01-15"`,
`"03/15/2023"` to `"2023-03-15"`, and `"15-01-2024"` to `"2024-01-15"`
(dash dates are parsed day-first); but `"01-15-2024"` (month 15 after the
day-first split is invalid), `"2024/01/20"` (no `YYYY/MM/DD` format
exists), and `"invalid-date"` all map to today's date plus a warning. -/
theorem transformRegisteredAt_table (today : String) (i : Nat) :
    (transformRegisteredAt today (some "2023-01-15") i).val = "2023-01-15" ∧
    (transformRegisteredAt today (some "03/15/2023") i).val = "2023-03-15" ∧
    (transformRegisteredAt today (some "15-01-2024") i).val = "2024-01-15" ∧
    ((transformRegisteredAt today (some "01-15-2024") i).val = today ∧
      (transformRegisteredAt today (some "01-15-2024") i).warns ≠ []) ∧
    ((transformRegisteredAt today (some "2024/01/20") i).val = today ∧
      (transformRegisteredAt today (some "2024/01/20") i).warns ≠ []) ∧
    ((transformRegisteredAt today (some "invalid-date") i).val = today ∧
      (transformRegisteredAt today (some "invalid-date") i).warns ≠ []) := by
  refine ⟨?_, ?_, ?_, ?_, ?_, ?_⟩
  · rw [transformRegisteredAt_parsed today _ i 2023 1 15 (by decide) (by decide) (by decide)]
    decide
  · rw [transformRegisteredAt_parsed today _ i 2023 3 15 (by decide) (by decide) (by decide)]
    decide
  · rw [transformRegisteredAt_parsed today _ i 2024 1 15 (by decide) (by decide) (by decide)]
    decide
  · exact transformRegisteredAt_invalid_value today _ i 2024 15 1 (by decide) (by decide)
      (by decide)
  · exact transformRegisteredAt_invalid_format today _ i (by decide) (by decide)
  · exact transformRegisteredAt_invalid_format today _ i (by decide) (by decide)

/-! ## C9: idempotence utilities -/

theorem isBlank_false_iff (s : String) :
    isBlank (some s) = false ↔ jsTrimL s.toList ≠ [] := by
  simp [isBlank]

theorem isBlank_mk_false {l : List Char} (hne : l ≠ [])
    (h : l.all (fun c => !jsWs c) = true) : isBlank (some (String.mk l)) = false := by
  rw [isBlank_false_iff, toList_mk, jsTrimL_of_all_not_ws l h]
  exact hne

theorem map_toUpperC_idem (l : List Char) :
    (l.map toUpperC).map toUpperC = l.map toUpperC := by
  rw [List.map_map]
  apply List.map_congr_left
  intro c _
  exact toUpperC_idem c

theorem map_toLowerC_idem (l : List Char) :
    (l.map toLowerC).map toLowerC = l.map toLowerC := by
  rw [List.map_map]
  apply List.map_congr_left
  intro c _
  exact toLowerC_idem c

theorem takeWhile_all {p : Char → Bool} {l : List Char} (h : l.all p = true) :
    l.takeWhile p = l := by
  induction l with
  | nil => rfl
  | cons c cs ih =>
    simp only [List.all_cons, Bool.and_eq_true] at h
    simp [List.takeWhile, h.1, ih h.2]

theorem dropWhile_all {p : Char → Bool} {l : List Char} (h : l.all p = true) :
    l.dropWhile p = [] := by
  induction l with
  | nil => rfl
  | cons c cs ih =>
    simp only [List.all_cons, Bool.and_eq_true] at h
    simp [List.dropWhile, h.1, ih h.2]

theorem lookup_value_mem {α β : Type} [BEq α] [LawfulBEq α] {l : List (α × β)} {k : α}
    {b : β} (h : l.lookup k = some b) : b ∈ l.map Prod.snd := by
  rw [List.lookup_eq_some_iff] at h
  obtain ⟨l1, l2, rfl, -⟩ := h
  simp

theorem all_not_ws_of_all_digit {l : List Char} (h : l.all digitB = true) :
    l.all (fun c => !jsWs c) = true := by
  rw [List.all_eq_true] at h ⊢
  intro c hc
  simpa using digitB_not_ws (h c hc)

/-! ## C9: idempotence of the individual normalizers -/

theorem transformCity_idem (v : Option String) (i j : Nat) :
    (transformCity (transformCity v i).val j).val = (transformCity v i).val := by
  by_cases hb : isBlank v = true
  · have hv : (transformCity v i).val = none := by rw [transformCity, if_pos hb]
    rw [hv]
    rfl
  · have hv : (transformCity v i).val = some (jsTrim (v.getD "")) := by
      rw [transformCity, if_neg hb]
    have hne : jsTrimL (v.getD "").toList ≠ [] := by
      rcases v with _ | s
      · simp [isBlank] at hb
      · exact (isBlank_false_iff s).mp (by simpa using hb)
    have hb2 : isBlank (some (jsTrim (v.getD ""))) = false := by
      rw [isBlank_false_iff]
      simp only [jsTrim, toList_mk, jsTrimL_idem]
      exact hne
    rw [hv, transformCity, if_neg (by simp [hb2])]
    simp [hv, jsTrim, toList_mk, jsTrimL_idem]

theorem transformProductName_idem (v : Option String) (i j : Nat) :
    (transformProductName (transformProductName v i).val j).val =
      (transformProductName v i).val := by
  by_cases hb : isBlank v = true
  · have hv : (transformProductName v i).val = none := by
      rw [transformProductName, if_pos hb]
    rw [hv]
    rfl
  · have hv : (transformProductName v i).val = some (jsTrim (v.getD "")) := by
      rw [transformProductName, if_neg hb]
    have hne : jsTrimL (v.getD "").toList ≠ [] := by
      rcases v with _ | s
      · simp [isBlank] at hb
      · exact (isBlank_false_iff s).mp (by simpa using hb)
    have hb2 : isBlank (some (jsTrim (v.getD ""))) = false := by
      rw [isBlank_false_iff]
      simp only [jsTrim, toList_mk, jsTrimL_idem]
      exact hne
    rw [hv, transformProductName, if_neg (by simp [hb2])]
    simp [hv, jsTrim, toList_mk, jsTrimL_idem]

theorem transformFullName_idem (v : Option String) (i j : Nat) :
    (transformFullName (transformFullName v i).val j).val =
      (transformFullName v i).val := by
  by_cases hb : isBlank v = true
  · have hv : (transformFullName v i).val = none := by
      rw [transformFullName, if_pos hb]
    rw [hv]
    rfl
  · have hv : (transformFullName v i).val =
        some (String.mk (collapseWsL (jsTrimL (v.getD "").toList))) := by
      simp only [transformFullName]
      rw [if_neg hb]
    have hne : jsTrimL (v.getD "").toList ≠ [] := by
      rcases v with _ | s
      · simp [isBlank] at hb
      · exact (isBlank_false_iff s).mp (by simpa using hb)
    have hcne : collapseWsL (jsTrimL (v.getD "").toList) ≠ [] := collapseWsL_ne_nil hne
    have htrim : jsTrimL (collapseWsL (jsTrimL (v.getD "").toList)) =
        collapseWsL (jsTrimL (v.getD "").toList) := jsTrimL_collapse_trim _
    have hb2 : isBlank (some (String.mk (collapseWsL (jsTrimL (v.getD "").toList)))) =
        false := by
      rw [isBlank_false_iff, toList_mk, htrim]
      exact hcne
    rw [hv]
    simp only [transformFullName]
    rw [if_neg (by simp only [Bool.not_eq_true]; exact hb2)]
    simp only [Option.getD_some, toList_mk, htrim, collapseWsL_idem]

/-- Every value of `transformStatus` is either an own-table status string
or an inherited `Object.prototype` member found through the prototype
chain. -/
theorem transformStatus_val_cases (v : Option String) (i : Nat) :
    (∃ s, (transformStatus v i).val = .strVal s ∧
      s ∈ (["Active", "Inactive", "Pending"] : List String)) ∨
    (∃ k, (transformStatus v i).val = .protoMember k) := by
  rw [transformStatus]
  by_cases hb : isBlank v = true
  · rw [if_pos hb]
    exact Or.inl ⟨"Active", rfl, by decide⟩
  · rw [if_neg hb]
    rcases hlk : jsIndex statusMap
        (String.mk ((jsTrimL ((v.getD "").toList)).map toLowerC)) with _ | m
    · simp only [hlk]
      exact Or.inl ⟨"Active", rfl, by decide⟩
    · simp only [hlk]
      cases m with
      | strVal t =>
        have hmem := lookup_value_mem (jsIndex_strVal hlk)
        by_cases ht : jsMemberTruthy (.strVal t) = true
        · rw [if_pos ht]
          refine Or.inl ⟨t, rfl, ?_⟩
          fin_cases hmem <;> decide
        · rw [if_neg ht]
          exact Or.inl ⟨"Active", rfl, by decide⟩
      | protoMember k =>
        rw [if_pos (by rfl)]
        exact Or.inr ⟨k, rfl⟩

/-- C9 per-normalizer: `transformStatus` is idempotent whenever its first
application returned a string (it did not hit the prototype chain). -/
theorem transformStatus_str_idem (v : Option String) (i j : Nat) (s : String)
    (h : (transformStatus v i).val = .strVal s) :
    (transformStatus (some s) j).val = .strVal s := by
  rcases transformStatus_val_cases v i with ⟨t, ht, hmem⟩ | ⟨k, hk⟩
  · injection (ht.symm.trans h) with hts
    rw [hts] at hmem
    fin_cases hmem <;> rfl
  · rw [h] at hk
    simp at hk

/-- Every value of `transformOrderStatus` is either an own-table status
string or an inherited `Object.prototype` member found through the
prototype chain. -/
theorem transformOrderStatus_val_cases (v : Option String) (i : Nat) :
    (∃ s, (transformOrderStatus v i).val = .strVal s ∧
      s ∈ (["Pending", "Processing", "Shipped", "Delivered", "Cancelled"] : List String)) ∨
    (∃ k, (transformOrderStatus v i).val = .protoMember k) := by
  rw [transformOrderStatus]
  rcases hlk : jsIndex orderStatusMap
      (String.mk ((jsTrimL (if truthy v = true then v.getD "" else "pending").toList).map
        toLowerC)) with _ | m
  · simp only [hlk]
    exact Or.inl ⟨"Pending", rfl, by decide⟩
  · simp only [hlk]
    cases m with
    | strVal t =>
      have hmem := lookup_value_mem (jsIndex_strVal hlk)
      by_cases ht : jsMemberTruthy (.strVal t) = true
      · rw [if_pos ht]
        refine Or.inl ⟨t, rfl, ?_⟩
        fin_cases hmem <;> decide
      · rw [if_neg ht]
        exact Or.inl ⟨"Pending", rfl, by decide⟩
    | protoMember k =>
      rw [if_pos (by rfl)]
      exact Or.inr ⟨k, rfl⟩

/-- C9 per-normalizer: `transformOrderStatus` is idempotent whenever its
first application returned a string (it did not hit the prototype chain). -/
theorem transformOrderStatus_str_idem (v : Option String) (i j : Nat) (s : String)
    (h : (transformOrderStatus v i).val = .strVal s) :
    (transformOrderStatus (some s) j).val = .strVal s := by
  rcases transformOrderStatus_val_cases v i with ⟨t, ht, hmem⟩ | ⟨k, hk⟩
  · injection (ht.symm.trans h) with hts
    rw [hts] at hmem
    fin_cases hmem <;> rfl
  · rw [h] at hk
    simp at hk

theorem map_toUpperC_digits {l : List Char} (h : l.all digitB = true) :
    l.map toUpperC = l := by
  rw [List.all_eq_true] at h
  rw [show l.map toUpperC = l.map id from
    List.map_congr_left fun a ha => toUpperC_digit (h a ha)]
  exact List.map_id l

theorem alnumB_of_digit {l : List Char} (h : l.all digitB = true) :
    l.all alnumB = true := by
  rw [List.all_eq_true] at h ⊢
  intro c hc
  simp [alnumB, h c hc]

theorem filter_all_eq_self {p : Char → Bool} {l : List Char} (h : l.all p = true) :
    l.filter p = l := by
  rw [List.all_eq_true] at h
  exact List.filter_eq_self.mpr h

/-- A canonical customer id `C` followed by digits is a fixed point of
`transformCustomerId`. -/
theorem transformCustomerId_fixed (rest : List Char) (j : Nat) (hne : rest ≠ [])
    (hdig : rest.all digitB = true) :
    transformCustomerId (some (String.mk ('C' :: rest))) j =
      ⟨some (String.mk ('C' :: rest)), [], []⟩ := by
  have hall : ('C' :: rest).all alnumB = true := by
    simp only [List.all_cons, Bool.and_eq_true]
    exact ⟨by decide, alnumB_of_digit hdig⟩
  have hws : ('C' :: rest).all (fun c => !jsWs c) = true := by
    simp only [List.all_cons, Bool.and_eq_true]
    exact ⟨by decide, all_not_ws_of_all_digit hdig⟩
  have hupper : ('C' :: rest).map toUpperC = 'C' :: rest := by
    simp only [List.map_cons, map_toUpperC_digits hdig]
    rw [show toUpperC 'C' = 'C' from by decide]
  have hempty : rest.isEmpty = false := by
    cases rest
    · exact absurd rfl hne
    · rfl
  rw [transformCustomerId,
    if_neg (by simp only [Bool.not_eq_true]; exact isBlank_mk_false (by simp) hws)]
  simp only [Option.getD_some, toList_mk, filter_all_eq_self hall, hupper]
  rw [show startsWithC ('C' :: rest) = true from by simp [startsWithC]]
  simp only [if_true]
  rw [show cidFormat ('C' :: rest) = true from by simp [cidFormat, hdig, hempty]]
  simp

/-- C9 per-normalizer: `transformCustomerId` is idempotent on values. -/
theorem transformCustomerId_idem (v : Option String) (i j : Nat) :
    (transformCustomerId (transformCustomerId v i).val j).val =
      (transformCustomerId v i).val := by
  by_cases hb : isBlank v = true
  · have hv : (transformCustomerId v i).val = none := by
      rw [transformCustomerId, if_pos hb]
    rw [hv]
    rfl
  · rcases hc2 : (if startsWithC (((v.getD "").toList.filter alnumB).map toUpperC) = true
        then ((v.getD "").toList.filter alnumB).map toUpperC
        else 'C' :: ((v.getD "").toList.filter alnumB).map toUpperC) with _ | ⟨x, rest⟩
    · have hv : (transformCustomerId v i).val = none := by
        simp only [transformCustomerId]
        rw [if_neg hb, hc2]
        rfl
      rw [hv]
      rfl
    · by_cases hf : cidFormat (x :: rest) = true
      · have hv : (transformCustomerId v i).val = some (String.mk (x :: rest)) := by
          simp only [transformCustomerId]
          rw [if_neg hb, hc2, if_pos hf]
        simp only [cidFormat, Bool.and_eq_true, beq_iff_eq] at hf
        obtain ⟨⟨hx, hrne⟩, hrdig⟩ := hf
        subst hx
        have hrne2 : rest ≠ [] := by
          cases rest
          · simp at hrne
          · simp
        rw [hv, transformCustomerId_fixed rest j hrne2 hrdig]
      · have hv : (transformCustomerId v i).val = none := by
          simp only [transformCustomerId]
          rw [if_neg hb, hc2, if_neg hf]
        rw [hv]
        rfl

/-- A canonical order id `ORD` followed by digits is a fixed point of
`transformOrderId`. -/
theorem transformOrderId_fixed (rest : List Char) (j : Nat) (hne : rest ≠ [])
    (hdig : rest.all digitB = true) :
    transformOrderId (some (String.mk ('O' :: 'R' :: 'D' :: rest))) j =
      ⟨some (String.mk ('O' :: 'R' :: 'D' :: rest)), [], []⟩ := by
  have hall : ('O' :: 'R' :: 'D' :: rest).all alnumB = true := by
    simp only [List.all_cons, Bool.and_eq_true]
    exact ⟨by decide, by decide, by decide, alnumB_of_digit hdig⟩
  have hws : ('O' :: 'R' :: 'D' :: rest).all (fun c => !jsWs c) = true := by
    simp only [List.all_cons, Bool.and_eq_true]
    exact ⟨by decide, by decide, by decide, all_not_ws_of_all_digit hdig⟩
  have hupper : ('O' :: 'R' :: 'D' :: rest).map toUpperC = 'O' :: 'R' :: 'D' :: rest := by
    simp only [List.map_cons, map_toUpperC_digits hdig]
    rw [show toUpperC 'O' = 'O' from by decide, show toUpperC 'R' = 'R' from by decide,
      show toUpperC 'D' = 'D' from by decide]
  have hempty : rest.isEmpty = false := by
    cases rest
    · exact absurd rfl hne
    · rfl
  rw [transformOrderId,
    if_neg (by simp only [Bool.not_eq_true]; exact isBlank_mk_false (by simp) hws)]
  simp only [Option.getD_some, toList_mk, filter_all_eq_self hall, hupper]
  rw [show startsWithORD ('O' :: 'R' :: 'D' :: rest) = true from by simp [startsWithORD]]
  simp only [if_true]
  rw [show ordFormat ('O' :: 'R' :: 'D' :: rest) = true from by
    simp [ordFormat, hdig, hempty]]
  simp

/-- C9 per-normalizer: `transformOrderId` is idempotent on values. -/
theorem transformOrderId_idem (v : Option String) (i j : Nat) :
    (transformOrderId (transformOrderId v i).val j).val =
      (transformOrderId v i).val := by
  by_cases hb : isBlank v = true
  · have hv : (transformOrderId v i).val = none := by
      rw [transformOrderId, if_pos hb]
    rw [hv]
    rfl
  · rcases hc2 : (if startsWithORD (((v.getD "").toList.filter alnumB).map toUpperC) = true
        then ((v.getD "").toList.filter alnumB).map toUpperC
        else 'O' :: 'R' :: 'D' :: ((v.getD "").toList.filter alnumB).map toUpperC)
        with _ | ⟨x, rest⟩
    · have hv : (transformOrderId v i).val = none := by
        simp only [transformOrderId]
        rw [if_neg hb, hc2]
        rfl
      rw [hv]
      rfl
    · by_cases hf : ordFormat (x :: rest) = true
      · have hv : (transformOrderId v i).val = some (String.mk (x :: rest)) := by
          simp only [transformOrderId]
          rw [if_neg hb, hc2, if_pos hf]
        rcases rest with _ | ⟨y, rest2⟩
        · simp [ordFormat] at hf
        rcases rest2 with _ | ⟨z, rest3⟩
        · simp [ordFormat] at hf
        simp only [ordFormat, Bool.and_eq_true, beq_iff_eq] at hf
        obtain ⟨⟨⟨⟨hx, hy⟩, hz⟩, hrne⟩, hrdig⟩ := hf
        subst hx; subst hy; subst hz
        have hrne2 : rest3 ≠ [] := by
          cases rest3
          · simp at hrne
          · simp
        rw [hv, transformOrderId_fixed rest3 j hrne2 hrdig]
      · have hv : (transformOrderId v i).val = none := by
          simp only [transformOrderId]
          rw [if_neg hb, hc2, if_neg hf]
        rw [hv]
        rfl

theorem all_take {p : Char → Bool} {l : List Char} (h : l.all p = true) (n : Nat) :
    (l.take n).all p = true := by
  rw [List.all_eq_true] at h ⊢
  exact fun c hc => h c (List.take_subset n l hc)

theorem all_drop {p : Char → Bool} {l : List Char} (h : l.all p = true) (n : Nat) :
    (l.drop n).all p = true := by
  rw [List.all_eq_true] at h ⊢
  exact fun c hc => h c (List.drop_subset n l hc)

/-- A formatted `XXX-XXXX` phone is a fixed point of `transformPhone`. -/
theorem transformPhone_fixed7 (a b : List Char) (j : Nat)
    (hda : a.all digitB = true) (hdb : b.all digitB = true)
    (hla : a.length = 3) (hlb : b.length = 4) :
    transformPhone (some (String.mk (a ++ '-' :: b))) j =
      ⟨some (String.mk (a ++ '-' :: b)), [], []⟩ := by
  have hws : (a ++ '-' :: b).all (fun c => !jsWs c) = true := by
    simp only [List.all_append, List.all_cons, Bool.and_eq_true]
    exact ⟨all_not_ws_of_all_digit hda, by decide, all_not_ws_of_all_digit hdb⟩
  have hnonempty : a ++ '-' :: b ≠ [] := by simp
  have hfilter : (a ++ '-' :: b).filter digitB = a ++ b := by
    rw [List.filter_append, filter_all_eq_self hda, List.filter_cons]
    rw [show digitB '-' = false from by decide]
    simp [filter_all_eq_self hdb]
  rw [transformPhone,
    if_neg (by simp only [Bool.not_eq_true]; exact isBlank_mk_false hnonempty hws)]
  simp only [Option.getD_some, toList_mk, hfilter]
  rw [if_pos (by simp [hla, hlb])]
  rw [List.take_left' hla, List.drop_left' hla]

/-- A ten-digit phone is a fixed point of `transformPhone`. -/
theorem transformPhone_fixed10 (l : List Char) (j : Nat)
    (hd : l.all digitB = true) (hl : l.length = 10) :
    transformPhone (some (String.mk l)) j = ⟨some (String.mk l), [], []⟩ := by
  have hnonempty : l ≠ [] := by
    intro hnil
    rw [hnil] at hl
    simp at hl
  rw [transformPhone,
    if_neg (by simp only [Bool.not_eq_true]
               exact isBlank_mk_false hnonempty (all_not_ws_of_all_digit hd))]
  simp only [Option.getD_some, toList_mk, filter_all_eq_self hd]
  rw [if_neg (by omega), if_pos hl]

/-- C9 per-normalizer: `transformPhone` is idempotent on values. -/
theorem transformPhone_idem (v : Option String) (i j : Nat) :
    (transformPhone (transformPhone v i).val j).val = (transformPhone v i).val := by
  by_cases hb : isBlank v = true
  · have hv : (transformPhone v i).val = none := by rw [transformPhone, if_pos hb]
    rw [hv]
    rfl
  · have hall : ((v.getD "").toList.filter digitB).all digitB = true :=
      all_filter_self digitB _
    by_cases h7 : ((v.getD "").toList.filter digitB).length = 7
    · have hv : (transformPhone v i).val =
          some (String.mk (((v.getD "").toList.filter digitB).take 3 ++
            '-' :: ((v.getD "").toList.filter digitB).drop 3)) := by
        simp only [transformPhone]
        rw [if_neg hb, if_pos h7]
      rw [hv, transformPhone_fixed7 _ _ j (all_take hall 3) (all_drop hall 3)
        (by rw [List.length_take]; omega) (by rw [List.length_drop]; omega)]
    · by_cases h10 : ((v.getD "").toList.filter digitB).length = 10
      · have hv : (transformPhone v i).val =
            some (String.mk ((v.getD "").toList.filter digitB)) := by
          simp only [transformPhone]
          rw [if_neg hb, if_neg h7, if_pos h10]
        rw [hv, transformPhone_fixed10 _ j hall h10]
      · have hv : (transformPhone v i).val = none := by
          simp only [transformPhone]
          rw [if_neg hb, if_neg h7, if_neg h10]
        rw [hv]
        rfl

theorem exists_len_two {α : Type} (l : List α) (h : l.length = 2) :
    ∃ a b, l = [a, b] := by
  rcases l with _ | ⟨a, l⟩
  · simp at h
  rcases l with _ | ⟨b, l⟩
  · simp at h
  have hlen : l.length = 0 := by
    simp only [List.length_cons] at h
    omega
  rw [List.eq_nil_of_length_eq_zero hlen]
  exact ⟨a, b, rfl⟩

/-- C9 per-normalizer: `transformStateCode` is idempotent whenever its
first application returned a string (the two-letter branch or an own-table
hit, not a prototype-chain member). -/
theorem transformStateCode_str_idem (v : Option String) (i j : Nat) (s : String)
    (h : (transformStateCode v i).val = some (.strVal s)) :
    (transformStateCode (some s) j).val = some (.strVal s) := by
  by_cases hb : isBlank v = true
  · have hv : (transformStateCode v i).val = none := by
      rw [transformStateCode, if_pos hb]
    rw [hv] at h
    cases h
  · by_cases h2 : (jsTrimL (v.getD "").toList).length = 2
    · have hv : (transformStateCode v i).val =
          some (.strVal (String.mk ((jsTrimL (v.getD "").toList).map toUpperC))) := by
        simp only [transformStateCode]
        rw [if_neg hb, if_pos h2]
      rw [hv] at h
      simp only [Option.some.injEq, JsMember.strVal.injEq] at h
      rw [← h]
      obtain ⟨a, b, hab⟩ := exists_len_two _ h2
      have hha := jsTrimL_head_ok (v.getD "").toList
      have hgl := jsTrimL_getLast_ok (v.getD "").toList
      rw [hab] at hha hgl
      simp only [List.head?_cons, Option.all_some, Bool.not_eq_true'] at hha
      simp only [List.getLast?_cons_cons, List.getLast?_singleton, Option.all_some,
        Bool.not_eq_true'] at hgl
      have hm : ([a, b].map toUpperC).all (fun c => !jsWs c) = true := by
        simp only [List.map_cons, List.map_nil, List.all_cons, List.all_nil,
          Bool.and_eq_true]
        refine ⟨by simpa using toUpperC_not_ws hha, by simpa using toUpperC_not_ws hgl, trivial⟩
      rw [hab, transformStateCode,
        if_neg (by simp only [Bool.not_eq_true]; exact isBlank_mk_false (by simp) hm)]
      rw [if_pos (by
        simp only [Option.getD_some, toList_mk,
          jsTrimL_of_all_not_ws _ hm]
        simp)]
      simp only [Option.getD_some, toList_mk, jsTrimL_of_all_not_ws _ hm]
      simp only [List.map_cons, List.map_nil, toUpperC_idem]
    · rcases hlk : jsIndex stateMapping (String.mk (jsTrimL (v.getD "").toList)) with _ | m
      · have hv : (transformStateCode v i).val = none := by
          simp only [transformStateCode]
          rw [if_neg hb, if_neg h2]
          simp only [hlk]
        rw [hv] at h
        cases h
      · cases m with
        | strVal t =>
          have hmem := lookup_value_mem (jsIndex_strVal hlk)
          have hv : (transformStateCode v i).val = some (.strVal t) := by
            simp only [transformStateCode]
            rw [if_neg hb, if_neg h2]
            simp only [hlk]
            rw [if_pos (by fin_cases hmem <;> rfl)]
          rw [hv] at h
          simp only [Option.some.injEq, JsMember.strVal.injEq] at h
          rw [← h]
          fin_cases hmem <;> rfl
        | protoMember k =>
          have hv : (transformStateCode v i).val = some (.protoMember k) := by
            simp only [transformStateCode]
            rw [if_neg hb, if_neg h2]
            simp only [hlk]
            rfl
          rw [hv] at h
          simp at h

theorem head_dropWhile_false {p : Char → Bool} :
    ∀ {l : List Char} {c : Char} {cs : List Char}, l.dropWhile p = c :: cs → p c = false := by
  intro l
  induction l with
  | nil => intro c cs h; simp at h
  | cons d ds ih =>
    intro c cs h
    rw [List.dropWhile_cons] at h
    by_cases hd : p d = true
    · rw [if_pos (by simp [hd])] at h
      exact ih h
    · rw [if_neg (by simp only [hd]; simp)] at h
      cases h
      simpa using hd

theorem lastDotSplit_eq {l pre tld : List Char} (h : lastDotSplit l = some (pre, tld)) :
    l = pre ++ '.' :: tld := by
  unfold lastDotSplit at h
  rcases hdw : l.reverse.dropWhile (fun c => !(c == '.')) with _ | ⟨c, revPre⟩
  · rw [hdw] at h
    simp at h
  · rw [hdw] at h
    have hc : c = '.' := by
      have := head_dropWhile_false hdw
      simpa using this
    subst hc
    simp only [Option.some_inj, Prod.mk.injEq] at h
    have hsplit : l.reverse =
        l.reverse.takeWhile (fun c => !(c == '.')) ++ '.' :: revPre := by
      conv_lhs => rw [← List.takeWhile_append_dropWhile
        (p := fun c => !(c == '.')) (l := l.reverse)]
      rw [hdw]
    have hrev := congrArg List.reverse hsplit
    rw [List.reverse_reverse, List.reverse_append, List.reverse_cons, List.append_assoc]
    at hrev
    rw [hrev, ← h.1, ← h.2]
    simp

theorem localChar_not_ws {c : Char} (h : localChar c = true) : jsWs c = false := by
  simp only [localChar, Bool.or_eq_true, beq_iff_eq] at h
  rcases h with ((((h | h) | h) | h) | h) | h
  · exact alnumB_not_ws h
  all_goals subst h
  all_goals decide

theorem domChar_not_ws {c : Char} (h : domChar c = true) : jsWs c = false := by
  simp only [domChar, Bool.or_eq_true, beq_iff_eq] at h
  rcases h with (h | h) | h
  · exact alnumB_not_ws h
  all_goals subst h
  all_goals decide

theorem alphaB_not_ws {c : Char} (h : alphaB c = true) : jsWs c = false := by
  apply alnumB_not_ws
  simp [alnumB, h]

theorem emailOk_decomp {l : List Char} (h : emailOkL l = true) :
    ∃ loc pre tld, l = loc ++ '@' :: (pre ++ '.' :: tld) ∧ loc ≠ [] ∧
      loc.all localChar = true ∧ pre.all domChar = true ∧ tld.all alphaB = true := by
  unfold emailOkL at h
  rcases hsp : splitFirst '@' l with _ | ⟨loc, dom⟩
  · simp only [hsp] at h
    exact absurd h (by simp)
  · simp only [hsp] at h
    rcases hld : lastDotSplit dom with _ | ⟨pre, tld⟩
    · simp only [hld] at h
      simp at h
    · simp only [hld] at h
      simp only [Bool.and_eq_true, Bool.not_eq_true', List.isEmpty_eq_false,
        decide_eq_true_eq] at h
      obtain ⟨⟨hne, hlocall⟩, ⟨⟨hprene, hpreall⟩, hlen⟩, htldall⟩ := h
      exact ⟨loc, pre, tld,
        by rw [(splitFirst_eq hsp).1, lastDotSplit_eq hld], hne, hlocall, hpreall, htldall⟩

theorem emailOk_not_ws {l : List Char} (h : emailOkL l = true) :
    l.all (fun c => !jsWs c) = true ∧ l ≠ [] := by
  obtain ⟨loc, pre, tld, heq, hne, hloc, hpre, htld⟩ := emailOk_decomp h
  subst heq
  constructor
  · simp only [List.all_append, List.all_cons, Bool.and_eq_true]
    rw [List.all_eq_true] at hloc hpre htld
    refine ⟨?_, by decide, ?_, by decide, ?_⟩
    · rw [List.all_eq_true]
      exact fun c hc => by simpa using localChar_not_ws (hloc c hc)
    · rw [List.all_eq_true]
      exact fun c hc => by simpa using domChar_not_ws (hpre c hc)
    · rw [List.all_eq_true]
      exact fun c hc => by simpa using alphaB_not_ws (htld c hc)
  · simp

/-- A normalized valid email is a fixed point of `transformEmail`. -/
theorem transformEmail_fixed (l : List Char) (j : Nat) (h : emailOkL l = true)
    (hlow : l.map toLowerC = l) :
    transformEmail (some (String.mk l)) j = ⟨some (String.mk l), [], []⟩ := by
  obtain ⟨hws, hne⟩ := emailOk_not_ws h
  rw [transformEmail,
    if_neg (by simp only [Bool.not_eq_true]; exact isBlank_mk_false hne hws)]
  simp only [Option.getD_some, toList_mk, jsTrimL_of_all_not_ws _ hws, hlow]
  rw [if_pos h]

/-- C9 per-normalizer: `transformEmail` is idempotent on values. -/
theorem transformEmail_idem (v : Option String) (i j : Nat) :
    (transformEmail (transformEmail v i).val j).val = (transformEmail v i).val := by
  by_cases hb : isBlank v = true
  · have hv : (transformEmail v i).val = none := by rw [transformEmail, if_pos hb]
    rw [hv]
    rfl
  · by_cases hok : emailOkL ((jsTrimL (v.getD "").toList).map toLowerC) = true
    · have hv : (transformEmail v i).val =
          some (String.mk ((jsTrimL (v.getD "").toList).map toLowerC)) := by
        simp only [transformEmail]
        rw [if_neg hb, if_pos hok]
      rw [hv, transformEmail_fixed _ j hok (map_toLowerC_idem _)]
    · have hv : (transformEmail v i).val = none := by
        simp only [transformEmail]
        rw [if_neg hb, if_neg hok]
      rw [hv]
      rfl

theorem exists_len_four {α : Type} (l : List α) (h : l.length = 4) :
    ∃ a b c d, l = [a, b, c, d] := by
  rcases l with _ | ⟨a, l⟩
  · simp at h
  rcases l with _ | ⟨b, l⟩
  · simp at h
  rcases l with _ | ⟨c, l⟩
  · simp at h
  rcases l with _ | ⟨d, l⟩
  · simp at h
  have hlen : l.length = 0 := by
    simp only [List.length_cons] at h
    omega
  rw [List.eq_nil_of_length_eq_zero hlen]
  exact ⟨a, b, c, d, rfl⟩

theorem padZeros_length (k : Nat) (l : List Char) :
    (padZeros k l).length = max k l.length := by
  simp [padZeros]
  omega

theorem padZeros_all_digits {k : Nat} {l : List Char} (h : l.all digitB = true) :
    (padZeros k l).all digitB = true := by
  simp only [padZeros, List.all_append, Bool.and_eq_true]
  refine ⟨?_, h⟩
  rw [List.all_eq_true]
  intro c hc
  rw [List.eq_of_mem_replicate hc]
  decide

theorem pad4_length {n : Nat} (h : n < 10000) : (pad4 n).length = 4 := by
  rw [pad4, padZeros_length]
  have := natToDigits_length n 4 (by omega) (by omega)
  omega

theorem pad2_length {n : Nat} (h : n < 100) : (pad2 n).length = 2 := by
  rw [pad2, padZeros_length]
  have := natToDigits_length n 2 (by omega) (by omega)
  omega

theorem pad4_all : ∀ n : Nat, (pad4 n).all digitB = true := fun n =>
  padZeros_all_digits (natToDigits_all n)

theorem pad2_all : ∀ n : Nat, (pad2 n).all digitB = true := fun n =>
  padZeros_all_digits (natToDigits_all n)

theorem digitsToNat_pad4 (n : Nat) : digitsToNat (pad4 n) = n := by
  rw [pad4, digitsToNat_padZeros, digitsToNat_natToDigits]

theorem digitsToNat_pad2 (n : Nat) : digitsToNat (pad2 n) = n := by
  rw [pad2, digitsToNat_padZeros, digitsToNat_natToDigits]

theorem parseIso?_isoOfYmd (y m d : Nat) (hy : y < 10000) (hm : m < 100) (hd : d < 100) :
    parseIso? (isoOfYmd y m d).toList = some (y, m, d) := by
  obtain ⟨a, b, c, d0, h4⟩ := exists_len_four (pad4 y) (pad4_length hy)
  obtain ⟨e, f, h2m⟩ := exists_len_two (pad2 m) (pad2_length hm)
  obtain ⟨g, h8, h2d⟩ := exists_len_two (pad2 d) (pad2_length hd)
  have ha4 : [a, b, c, d0].all digitB = true := h4 ▸ pad4_all y
  have ha2m : [e, f].all digitB = true := h2m ▸ pad2_all m
  have ha2d : [g, h8].all digitB = true := h2d ▸ pad2_all d
  have hval4 : digitsToNat [a, b, c, d0] = y := by rw [← h4, digitsToNat_pad4]
  have hval2m : digitsToNat [e, f] = m := by rw [← h2m, digitsToNat_pad2]
  have hval2d : digitsToNat [g, h8] = d := by rw [← h2d, digitsToNat_pad2]
  have htl : (isoOfYmd y m d).toList = [a, b, c, d0, '-', e, f, '-', g, h8] := by
    rw [isoOfYmd, toList_mk, h4, h2m, h2d]
    rfl
  rw [htl]
  simp only [parseIso?]
  rw [if_pos ?_]
  · rw [hval4, hval2m, hval2d]
  · simp only [List.all_cons, Bool.and_eq_true] at ha4 ha2m ha2d
    simp [ha4.1, ha4.2.1, ha4.2.2.1, ha4.2.2.2.1, ha2m.1, ha2m.2.1, ha2d.1, ha2d.2.1]

theorem isoOfYmd_not_ws (y m d : Nat) :
    (isoOfYmd y m d).toList.all (fun c => !jsWs c) = true := by
  rw [isoOfYmd, toList_mk]
  have hdash : (!jsWs '-') = true := by decide
  simp [List.all_append, List.all_cons, all_not_ws_of_all_digit (pad4_all y),
    all_not_ws_of_all_digit (pad2_all m), all_not_ws_of_all_digit (pad2_all d), hdash]

theorem isoOfYmd_ne_nil (y m d : Nat) : (isoOfYmd y m d).toList ≠ [] := by
  rw [isoOfYmd, toList_mk]
  simp

theorem parseIso?_bounds :
    ∀ {l : List Char} {y m d : Nat}, parseIso? l = some (y, m, d) →
      y < 10000 ∧ m < 100 ∧ d < 100 := by
  intro l y m d h
  unfold parseIso? at h
  split at h
  · rename_i a b c d0 s1 e f s2 g h8
    split at h
    · rename_i hcond
      simp only [Bool.and_eq_true] at hcond
      obtain ⟨-, hall⟩ := hcond
      simp only [List.all_cons, List.all_nil, Bool.and_eq_true] at hall
      simp only [Option.some_inj, Prod.mk.injEq] at h
      obtain ⟨hy, hm, hd⟩ := h
      subst hy; subst hm; subst hd
      refine ⟨?_, ?_, ?_⟩
      · have := digitsToNat_lt [a, b, c, d0] (by
          simp [hall.1, hall.2.1, hall.2.2.1, hall.2.2.2.1])
        simpa using this
      · have := digitsToNat_lt [e, f] (by simp [hall.2.2.2.2.1, hall.2.2.2.2.2.1])
        simpa using this
      · have := digitsToNat_lt [g, h8] (by
          simp [hall.2.2.2.2.2.2.1, hall.2.2.2.2.2.2.2])
        simpa using this
    · cases h
  · cases h

theorem seg4_bound {l : List Char} (h : seg4 l = true) : digitsToNat l < 10000 := by
  simp only [seg4, Bool.and_eq_true, beq_iff_eq] at h
  have := digitsToNat_lt l h.2
  rw [h.1] at this
  simpa using this

theorem seg12_bound {l : List Char} (h : seg12 l = true) : digitsToNat l < 100 := by
  simp only [seg12, Bool.and_eq_true, Bool.or_eq_true, beq_iff_eq] at h
  have hlt := digitsToNat_lt l h.2
  rcases h.1 with h1 | h1 <;> rw [h1] at hlt
  · calc digitsToNat l < 10 ^ 1 := hlt
      _ ≤ 100 := by norm_num
  · simpa using hlt

theorem seg_if_bound {y m d : Nat} {p q yr r s : List Char}
    (hr : r = p ∨ r = q) (hs : s = p ∨ s = q)
    (h : (if (seg12 p && seg12 q && seg4 yr) = true then
        some (digitsToNat yr, digitsToNat r, digitsToNat s) else none) = some (y, m, d)) :
    y < 10000 ∧ m < 100 ∧ d < 100 := by
  split at h
  · rename_i hseg
    simp only [Bool.and_eq_true] at hseg
    simp only [Option.some_inj, Prod.mk.injEq] at h
    obtain ⟨h1, h2, h3⟩ := h
    subst h1; subst h2; subst h3
    have hr2 : digitsToNat r < 100 := by
      rcases hr with hh | hh <;> rw [hh]
      · exact seg12_bound hseg.1.1
      · exact seg12_bound hseg.1.2
    have hs2 : digitsToNat s < 100 := by
      rcases hs with hh | hh <;> rw [hh]
      · exact seg12_bound hseg.1.1
      · exact seg12_bound hseg.1.2
    exact ⟨seg4_bound hseg.2, hr2, hs2⟩
  · cases h

theorem dateCandidate_bounds {raw : List Char} {y m d : Nat}
    (h : dateCandidate raw = some (y, m, d)) : y < 10000 ∧ m < 100 ∧ d < 100 := by
  unfold dateCandidate at h
  rcases hp : parseIso? raw with _ | ⟨⟨y2, m2, d2⟩⟩
  · simp only [hp] at h
    rcases hts : threeParts '/' raw with _ | ⟨mo, da, yr⟩
    · simp only [hts] at h
      rcases htd : threeParts '-' raw with _ | ⟨da2, mo2, yr2⟩
      · simp only [htd] at h
        exact absurd h (by simp)
      · simp only [htd] at h
        exact seg_if_bound (p := da2) (q := mo2) (Or.inr rfl) (Or.inl rfl) h
    · simp only [hts] at h
      split at h
      · rename_i ymd hseg
        have hymd : ymd = (y, m, d) := by simpa using h
        rw [hymd] at hseg
        exact seg_if_bound (p := mo) (q := da) (Or.inl rfl) (Or.inr rfl) hseg
      · rcases htd : threeParts '-' raw with _ | ⟨da2, mo2, yr2⟩
        · simp only [htd] at h
          exact absurd h (by simp)
        · simp only [htd] at h
          exact seg_if_bound (p := da2) (q := mo2) (Or.inr rfl) (Or.inl rfl) h
  · simp only [hp, Option.some_inj] at h
    simp only [Prod.mk.injEq] at h
    obtain ⟨h1, h2, h3⟩ := h
    subst h1; subst h2; subst h3
    exact parseIso?_bounds hp

theorem validYmd_iff (y m d : Nat) :
    validYmd y m d = true ↔ 1 ≤ m ∧ m ≤ 12 ∧ 1 ≤ d ∧ d ≤ 31 := by
  simp [validYmd, and_assoc]

theorem daysInMonth_ge (y m : Nat) : 28 ≤ daysInMonth y m := by
  simp only [daysInMonth]
  split
  · split <;> omega
  · split <;> omega

theorem daysInMonth_le (y m : Nat) : daysInMonth y m ≤ 31 := by
  simp only [daysInMonth]
  split
  · split <;> omega
  · split <;> omega

theorem daysInMonth_twelve (y : Nat) : daysInMonth y 12 = 31 := rfl

theorem rollYmd_eq_self {y m d : Nat} (h : d ≤ daysInMonth y m) :
    rollYmd y m d = (y, m, d) := by
  rw [rollYmd, if_pos h]

/-- Rolling a grammar-valid date yields a real calendar date in the same
year whose day fits its month (so rolling it again is the identity). -/
theorem rollYmd_spec {y m d : Nat} (hv : validYmd y m d = true) :
    (rollYmd y m d).1 = y ∧
    validYmd (rollYmd y m d).1 (rollYmd y m d).2.1 (rollYmd y m d).2.2 = true ∧
    (rollYmd y m d).2.2 ≤ daysInMonth (rollYmd y m d).1 (rollYmd y m d).2.1 := by
  obtain ⟨hm1, hm2, hd1, hd2⟩ := (validYmd_iff y m d).mp hv
  rw [rollYmd]
  by_cases h : d ≤ daysInMonth y m
  · rw [if_pos h]
    exact ⟨rfl, hv, h⟩
  · rw [if_neg h]
    by_cases h12 : m = 12
    · exfalso
      rw [h12, daysInMonth_twelve] at h
      omega
    · rw [if_neg h12]
      have hge := daysInMonth_ge y m
      have hge2 := daysInMonth_ge y (m + 1)
      have hne : m ≠ 12 := h12
      refine ⟨rfl, ?_, ?_⟩
      · show validYmd y (m + 1) (d - daysInMonth y m) = true
        rw [validYmd_iff]
        refine ⟨by omega, by omega, by omega, by omega⟩
      · show d - daysInMonth y m ≤ daysInMonth y (m + 1)
        omega

/-- A canonical valid ISO day string is a fixed point (on values) of
`transformRegisteredAt`, whatever today is. -/
theorem transformRegisteredAt_fixed (today : String) (j y m d : Nat)
    (hy : y < 10000) (hm : m < 100) (hd : d < 100) (hv : validYmd y m d = true)
    (hdim : d ≤ daysInMonth y m) :
    (transformRegisteredAt today (some (isoOfYmd y m d)) j).val = isoOfYmd y m d := by
  have hb : isBlank (some (isoOfYmd y m d)) = false := by
    rw [isBlank_false_iff, jsTrimL_of_all_not_ws _ (isoOfYmd_not_ws y m d)]
    exact isoOfYmd_ne_nil y m d
  have hdc : dateCandidate (isoOfYmd y m d).toList = some (y, m, d) := by
    unfold dateCandidate
    rw [parseIso?_isoOfYmd y m d hy hm hd]
  have hp := transformRegisteredAt_parsed today _ j y m d hb (by simpa using hdc) hv
  rw [hp, rollYmd_eq_self hdim]

theorem digit_not_dollar_comma {c : Char} (h : digitB c = true) :
    (!(c == '$' || c == ',')) = true := by
  simp only [digitB, Bool.and_eq_true, decide_eq_true_eq] at h
  simp only [beq_char_iff_toNat, Bool.or_eq_true, Bool.not_eq_true']
  rw [show ('$').toNat = 36 from rfl, show (',').toNat = 44 from rfl]
  simp only [Bool.or_eq_false_iff]
  constructor <;> (rw [beq_eq_false_iff_ne]; omega)

theorem takeSign_digit {c : Char} (r : List Char) (h : digitB c = true) :
    takeSign (c :: r) = (1, c :: r) := by
  simp only [digitB, Bool.and_eq_true, decide_eq_true_eq] at h
  rw [takeSign, if_neg, if_neg]
  · rw [beq_char_iff_toNat, show ('+').toNat = 43 from rfl]
    simp only [Bool.not_eq_true, beq_eq_false_iff_ne, ne_eq]
    omega
  · rw [beq_char_iff_toNat, show ('-').toNat = 45 from rfl]
    simp only [Bool.not_eq_true, beq_eq_false_iff_ne, ne_eq]
    omega

/-- Parsing the `toFixed(2)` output recovers exactly `n` cents. -/
theorem jsParseFloatL_print (n : Nat) :
    jsParseFloatL (natToDigits (n / 100) ++ '.' ::
      padZeros 2 (natToDigits (n % 100))) = some ((n : Int), -2) := by
  have hd1 : (natToDigits (n / 100)).all digitB = true := natToDigits_all _
  have hd1ne : natToDigits (n / 100) ≠ [] := natToDigits_ne_nil _
  have hd2 : (padZeros 2 (natToDigits (n % 100))).all digitB = true :=
    padZeros_all_digits (natToDigits_all _)
  have hlen2 : (padZeros 2 (natToDigits (n % 100))).length = 2 := by
    rw [padZeros_length]
    have := natToDigits_length (n % 100) 2 (by omega) (by omega)
    omega
  have hws : (natToDigits (n / 100) ++ '.' ::
      padZeros 2 (natToDigits (n % 100))).all (fun c => !jsWs c) = true := by
    simp only [List.all_append, List.all_cons, Bool.and_eq_true]
    exact ⟨all_not_ws_of_all_digit hd1, by decide, all_not_ws_of_all_digit hd2⟩
  obtain ⟨c, cs, hcons⟩ : ∃ c cs, natToDigits (n / 100) = c :: cs := by
    rcases hh : natToDigits (n / 100) with _ | ⟨c, cs⟩
    · exact absurd hh hd1ne
    · exact ⟨c, cs, rfl⟩
  have hcdig : digitB c = true := by
    rw [hcons] at hd1
    simp only [List.all_cons, Bool.and_eq_true] at hd1
    exact hd1.1
  have hsign : takeSign ((natToDigits (n / 100) ++ '.' ::
      padZeros 2 (natToDigits (n % 100))).dropWhile jsWs) =
      (1, natToDigits (n / 100) ++ '.' :: padZeros 2 (natToDigits (n % 100))) := by
    rw [dropWhile_ws_of_all_not _ hws, hcons, List.cons_append, takeSign_digit _ hcdig]
  have htw := takeWhile_append_of_all (p := digitB)
    (b := '.' :: padZeros 2 (natToDigits (n % 100))) hd1
    (by rw [List.head?_cons]; decide)
  have hfp : (padZeros 2 (natToDigits (n % 100))).takeWhile digitB =
      padZeros 2 (natToDigits (n % 100)) := takeWhile_all hd2
  have hr2 : (padZeros 2 (natToDigits (n % 100))).dropWhile digitB = [] :=
    dropWhile_all hd2
  simp only [jsParseFloatL, hsign, htw.1, htw.2, hfp, hr2]
  rw [if_neg (by
    intro hcontra
    exact hd1ne hcontra.1)]
  have hval : digitsToNat (natToDigits (n / 100) ++
      padZeros 2 (natToDigits (n % 100))) = n := by
    rw [digitsToNat_append, hlen2, digitsToNat_natToDigits, digitsToNat_padZeros,
      digitsToNat_natToDigits]
    omega
  rw [hval, hlen2]
  norm_num

/-- The printed `toFixed(2)` string is a fixed point of `transformUnitPrice`. -/
theorem transformUnitPrice_fixed (n : Nat) (j : Nat) :
    transformUnitPrice (some (String.mk (natToDigits (n / 100) ++ '.' ::
      padZeros 2 (natToDigits (n % 100))))) j =
      ⟨some (String.mk (natToDigits (n / 100) ++ '.' ::
        padZeros 2 (natToDigits (n % 100)))), [], []⟩ := by
  have hd1 : (natToDigits (n / 100)).all digitB = true := natToDigits_all _
  have hd2 : (padZeros 2 (natToDigits (n % 100))).all digitB = true :=
    padZeros_all_digits (natToDigits_all _)
  have hws : (natToDigits (n / 100) ++ '.' ::
      padZeros 2 (natToDigits (n % 100))).all (fun c => !jsWs c) = true := by
    simp only [List.all_append, List.all_cons, Bool.and_eq_true]
    exact ⟨all_not_ws_of_all_digit hd1, by decide, all_not_ws_of_all_digit hd2⟩
  have hnodollar : (natToDigits (n / 100) ++ '.' ::
      padZeros 2 (natToDigits (n % 100))).all (fun c => !(c == '$' || c == ',')) = true := by
    simp only [List.all_append, List.all_cons, Bool.and_eq_true]
    refine ⟨?_, by decide, ?_⟩
    · rw [List.all_eq_true] at hd1 ⊢
      exact fun c hc => digit_not_dollar_comma (hd1 c hc)
    · rw [List.all_eq_true] at hd2 ⊢
      exact fun c hc => digit_not_dollar_comma (hd2 c hc)
  have hne : natToDigits (n / 100) ++ '.' :: padZeros 2 (natToDigits (n % 100)) ≠ [] := by
    simp
  rw [transformUnitPrice,
    if_neg (by simp only [Bool.not_eq_true]; exact isBlank_mk_false hne hws)]
  simp only [Option.getD_some, toList_mk, filter_all_eq_self hnodollar,
    jsTrimL_of_all_not_ws _ hws, jsParseFloatL_print n]
  rw [if_neg (by omega)]
  have htf : toFixed2 (n : Int) (-2) = String.mk (natToDigits (n / 100) ++ '.' ::
      padZeros 2 (natToDigits (n % 100))) := by
    rw [toFixed2]
    norm_num
  rw [htf]

/-- C9 per-normalizer: `transformUnitPrice` is idempotent on values. -/
theorem transformUnitPrice_idem (v : Option String) (i j : Nat) :
    (transformUnitPrice (transformUnitPrice v i).val j).val =
      (transformUnitPrice v i).val := by
  by_cases hb : isBlank v = true
  · have hv : (transformUnitPrice v i).val = none := by
      rw [transformUnitPrice, if_pos hb]
    rw [hv]
    rfl
  · rcases hp : jsParseFloatL (jsTrimL ((v.getD "").toList.filter
        fun c => !(c == '$' || c == ','))) with _ | ⟨m, e⟩
    · have hv : (transformUnitPrice v i).val = none := by
        simp only [transformUnitPrice]
        rw [if_neg hb]
        simp only [hp]
      rw [hv]
      rfl
    · by_cases hm : m < 0
      · have hv : (transformUnitPrice v i).val = none := by
          simp only [transformUnitPrice]
          rw [if_neg hb]
          simp only [hp]
          rw [if_pos hm]
        rw [hv]
        rfl
      · have hv : (transformUnitPrice v i).val = some (toFixed2 m e) := by
          simp only [transformUnitPrice]
          rw [if_neg hb]
          simp only [hp]
          rw [if_neg hm]
        obtain ⟨n, hn⟩ : ∃ k : Nat, toFixed2 m e = String.mk (natToDigits (k / 100) ++
            '.' :: padZeros 2 (natToDigits (k % 100))) := ⟨_, rfl⟩
        rw [hv, hn, transformUnitPrice_fixed n j]

/-- C9 per-normalizer: `transformRegisteredAt` is idempotent on values, for
any canonical current-day string (which is what `new Date()` supplies). -/
theorem transformRegisteredAt_idem (today : String) (htoday : isCanonIso today = true)
    (v : Option String) (i j : Nat) :
    (transformRegisteredAt today (some (transformRegisteredAt today v i).val) j).val =
      (transformRegisteredAt today v i).val := by
  obtain ⟨ty, tm, td, hpt, hvt, hdimt, hit⟩ :
      ∃ ty tm td, parseIso? today.toList = some (ty, tm, td) ∧
        validYmd ty tm td = true ∧ td ≤ daysInMonth ty tm ∧
        isoOfYmd ty tm td = today := by
    unfold isCanonIso at htoday
    rcases hpt : parseIso? today.toList with _ | ⟨⟨ty, tm, td⟩⟩
    · rw [hpt] at htoday
      cases htoday
    · rw [hpt] at htoday
      simp only [Bool.and_eq_true, beq_iff_eq, decide_eq_true_eq] at htoday
      exact ⟨ty, tm, td, rfl, htoday.1.1, htoday.1.2, htoday.2⟩
  obtain ⟨hty, htm, htd⟩ := parseIso?_bounds hpt
  have htoday_fix : ∀ k : Nat,
      (transformRegisteredAt today (some today) k).val = today := by
    intro k
    conv_lhs => rw [← hit]
    rw [transformRegisteredAt_fixed (isoOfYmd ty tm td) k ty tm td hty htm htd hvt hdimt]
    exact hit
  by_cases hb : isBlank v = true
  · have hv : (transformRegisteredAt today v i).val = today := by
      rw [transformRegisteredAt, if_pos hb]
    rw [hv, htoday_fix j]
  · rcases hdc : dateCandidate ((v.getD "").toList) with _ | ⟨⟨y, m, d⟩⟩
    · have hv := transformRegisteredAt_invalid_format today v i
        (by simpa using hb) (by simpa using hdc)
      rw [hv.1, htoday_fix j]
    · by_cases hvd : validYmd y m d = true
      · have hv := transformRegisteredAt_parsed today v i y m d (by simpa using hb)
          (by simpa using hdc) hvd
        obtain ⟨hy, hm, hd⟩ := dateCandidate_bounds hdc
        obtain ⟨hfst, hvr, hdr⟩ := rollYmd_spec hvd
        obtain ⟨-, hm2', -, hd2'⟩ := (validYmd_iff _ _ _).mp hvr
        rw [hv, transformRegisteredAt_fixed today j _ _ _
          (by rw [hfst]; exact hy) (by omega) (by omega) hvr hdr]
      · have hv := transformRegisteredAt_invalid_value today v i y m d
          (by simpa using hb) (by simpa using hdc) (by simpa using hvd)
        rw [hv.1, htoday_fix j]

/-! ## C9: the claim itself -/

/-- C9 counterexample: `transformQuantity` is not idempotent — it returns a
number, and re-applying it to its own output makes `value.trim()` throw a
`TypeError` under JS dynamic typing, so `f(f("5"))` does not equal
`f("5")` (it does not produce a value at all). -/
theorem transformQuantity_reapply_throws :
    jsTransformQuantity (JsVal.vStr "5") 2 = Except.ok (JsVal.vNum 5, []) ∧
    (jsTransformQuantity (JsVal.vStr "5") 2).bind
        (fun p => jsTransformQuantity p.1 2) =
      Except.error "TypeError: value.trim is not a function" := by
  refine ⟨rfl, rfl⟩

/-- C9 amended: the normalizers that build their strings without an
object-literal lookup are idempotent on values — `transformCustomerId`,
`transformFullName`, `transformEmail`, `transformPhone`, `transformCity`,
`transformRegisteredAt` and `transformOrderDate` (for the canonical
current-day string that `new Date()` supplies), `transformProductName`,
`transformUnitPrice`, `transformOrderId`.  The three lookup-based
normalizers (`transformStateCode`, `transformStatus`,
`transformOrderStatus`) are idempotent exactly when the first application
returned a string (or null): when the cleaned input instead names an
inherited `Object.prototype` member — which happens, e.g., on the raw
value `"constructor"` — the prototype chain returns that member, a
function, and re-applying the normalizer to it throws a `TypeError`
(`value.trim is not a function`).  `transformQuantity` likewise returns a
number, so its re-application throws (see the counterexample). -/
theorem normalizers_idempotent (v : Option String) (i j : Nat) (today : String)
    (htoday : isCanonIso today = true) :
    (transformCustomerId (transformCustomerId v i).val j).val =
      (transformCustomerId v i).val ∧
    (transformFullName (transformFullName v i).val j).val =
      (transformFullName v i).val ∧
    (transformEmail (transformEmail v i).val j).val = (transformEmail v i).val ∧
    (transformPhone (transformPhone v i).val j).val = (transformPhone v i).val ∧
    (transformCity (transformCity v i).val j).val = (transformCity v i).val ∧
    (transformRegisteredAt today (some (transformRegisteredAt today v i).val) j).val =
      (transformRegisteredAt today v i).val ∧
    (transformProductName (transformProductName v i).val j).val =
      (transformProductName v i).val ∧
    (transformUnitPrice (transformUnitPrice v i).val j).val =
      (transformUnitPrice v i).val ∧
    (transformOrderId (transformOrderId v i).val j).val = (transformOrderId v i).val ∧
    (transformOrderDate today (some (transformOrderDate today v i).val) j).val =
      (transformOrderDate today v i).val ∧
    (∀ s : String, (transformStateCode v i).val = some (JsMember.strVal s) →
      (transformStateCode (some s) j).val = some (JsMember.strVal s)) ∧
    ((transformStateCode v i).val = none → (transformStateCode none j).val = none) ∧
    (∀ k : String, (transformStateCode v i).val = some (JsMember.protoMember k) →
      jsReapplyMemberOpt transformStateCode (some (JsMember.protoMember k)) j =
        Except.error "TypeError: value.trim is not a function") ∧
    (∀ s : String, (transformStatus v i).val = JsMember.strVal s →
      (transformStatus (some s) j).val = JsMember.strVal s) ∧
    (∀ k : String, (transformStatus v i).val = JsMember.protoMember k →
      jsReapplyMember transformStatus (JsMember.protoMember k) j =
        Except.error "TypeError: value.trim is not a function") ∧
    (∀ s : String, (transformOrderStatus v i).val = JsMember.strVal s →
      (transformOrderStatus (some s) j).val = JsMember.strVal s) ∧
    (∀ k : String, (transformOrderStatus v i).val = JsMember.protoMember k →
      jsReapplyMember transformOrderStatus (JsMember.protoMember k) j =
        Except.error "TypeError: value.trim is not a function") ∧
    (transformStateCode (some "constructor") 2).val =
      some (JsMember.protoMember "constructor") ∧
    (transformStatus (some "constructor") 2).val = JsMember.protoMember "constructor" ∧
    (transformOrderStatus (some "constructor") 2).val =
      JsMember.protoMember "constructor" :=
  ⟨transformCustomerId_idem v i j, transformFullName_idem v i j,
    transformEmail_idem v i j, transformPhone_idem v i j, transformCity_idem v i j,
    transformRegisteredAt_idem today htoday v i j,
    transformProductName_idem v i j, transformUnitPrice_idem v i j,
    transformOrderId_idem v i j, transformRegisteredAt_idem today htoday v i j,
    fun s hs => transformStateCode_str_idem v i j s hs,
    fun _ => rfl,
    fun _ _ => rfl,
    fun s hs => transformStatus_str_idem v i j s hs,
    fun _ _ => rfl,
    fun s hs => transformOrderStatus_str_idem v i j s hs,
    fun _ _ => rfl,
    rfl, rfl, rfl⟩

/-- Witness for C9 amended at a concrete raw value and current day. -/
theorem normalizers_idempotent_witness :
    isCanonIso "2025-03-04" = true ∧
    (transformPhone (transformPhone (some " (555) 0106") 2).val 3).val =
      (transformPhone (some " (555) 0106") 2).val :=
  ⟨by decide,
    (normalizers_idempotent (some " (555) 0106") 2 3 "2025-03-04" (by decide)).2.2.2.1⟩

end Etl
